import Mathlib

/-!
# BoxUnlocker: a shallow embedding of `SecureBoxUnlocker.cpp`

The C++ program keeps a `rows × cols` grid of booleans inside `SecureBox`
and tries to clear it with `toggle` calls.  The embedding below follows the
source function by function:

* `std::vector<std::vector<bool>>` is `List (List Bool)`;
* every access `box[y][x]` is checked, and an access outside of the vectors
  (undefined behaviour in C++) is the explicit result
  `Except.error (Fault.outOfRange y x)`; the accesses `state[row][colum]` of
  `toggleBoxByMask` sit inside loops bounded by the sizes of the very vectors
  they index, and are read directly;
* counting `for` loops are `forRange`;
* the `while` loop of `openBox` takes a number of iterations it may run
  (`fuel`), and reports `Outcome.running` when it is still inside the loop
  after that many iterations;
* the pseudo-random generator of `SecureBox` is replaced by the list of the
  pairs of numbers it hands to `shuffle`;
* `uint32_t` / `size_t` counters only count up to a vector size, so they never
  wrap around and are modelled by `Nat`;
* `SecureBox.calls` is a ghost field: the history of `toggle` invocations.  It
  does not exist in the source and never influences `box`.
-/

namespace BoxUnlocker

/-! ## Data model -/

/-- Undefined behaviour of the C++ program, made explicit. -/
inductive Fault where
  /-- An access `box[y][x]` outside of the vectors. -/
  | outOfRange (y x : Nat)
  /-- The access `state[0]` on an empty vector. -/
  | emptyState
  /-- The computation `rng() % 0` in `shuffle`. -/
  | divByZero
  deriving DecidableEq, Repr

/-- The type `std::vector<std::vector<bool>>`. -/
abbrev Grid := List (List Bool)

/-- The class `SecureBox` (without its random generator), together with the
ghost history `calls` of the positions `toggle` was invoked with. -/
structure SecureBox where
  box : Grid
  ySize : Nat
  xSize : Nat
  calls : List (Nat × Nat)
  deriving DecidableEq, Repr

/-- What running a piece of the program gives: a value, undefined behaviour,
or a `while` loop that has not exited within the iterations it was given. -/
inductive Outcome (α : Type) where
  | done (a : α)
  | fault (f : Fault)
  | running
  deriving DecidableEq, Repr

/-- The loop `for (i = 0; i < n; ++i) s = body(i, s)`, stopping at the first
fault. -/
def forRange {σ : Type} (n : Nat) (body : Nat → σ → Except Fault σ) (s : σ) :
    Except Fault σ :=
  match n with
  | 0 => .ok s
  | k + 1 =>
    match forRange k body s with
    | .ok s1 => body k s1
    | .error f => .error f

/-- Reading `box[y][x]`. -/
def readCell (g : Grid) (y x : Nat) : Except Fault Bool :=
  match g[y]? with
  | none => .error (.outOfRange y x)
  | some row =>
    match row[x]? with
    | none => .error (.outOfRange y x)
    | some v => .ok v

/-- The statement `box[y][x] = !box[y][x]`. -/
def flipCell (g : Grid) (y x : Nat) : Except Fault Grid :=
  match g[y]? with
  | none => .error (.outOfRange y x)
  | some row =>
    match row[x]? with
    | none => .error (.outOfRange y x)
    | some v => .ok (g.set y (row.set x (!v)))

/-! ## The class `SecureBox` -/

/-- The method `SecureBox::toggle(y, x)`: flip `box[y][x]`, then every cell of
row `y`, then every cell of column `x`. -/
def SecureBox.toggle (b : SecureBox) (y x : Nat) : Except Fault SecureBox :=
  match flipCell b.box y x with
  | .error f => .error f
  | .ok g0 =>
    match forRange b.xSize (fun i g => flipCell g y i) g0 with
    | .error f => .error f
    | .ok g1 =>
      match forRange b.ySize (fun i g => flipCell g i x) g1 with
      | .error f => .error f
      | .ok g2 => .ok { b with box := g2, calls := b.calls ++ [(y, x)] }

/-- The method `SecureBox::isLocked()`: scan the columns `x`, inside them the
rows `y`, and return `true` at the first cell that is `true`.  The flag
`found` carries the early `return true` out of the two loops. -/
def SecureBox.isLocked (b : SecureBox) : Except Fault Bool :=
  forRange b.xSize (fun x found =>
    forRange b.ySize (fun y found =>
      if found then .ok true else readCell b.box y x) found) false

/-- The method `SecureBox::getState()`. -/
def SecureBox.getState (b : SecureBox) : Grid := b.box

/-- The method `SecureBox::shuffle()`.  `draws` lists the pairs of values
`rng()` returns for the `rng() % 1000` rounds of the loop. -/
def SecureBox.shuffle (b : SecureBox) : List (Nat × Nat) → Except Fault SecureBox
  | [] => .ok b
  | (r1, r2) :: rest =>
    if b.ySize = 0 ∨ b.xSize = 0 then .error .divByZero
    else
      match b.toggle (r1 % b.ySize) (r2 % b.xSize) with
      | .error f => .error f
      | .ok b1 => b1.shuffle rest

/-- The grid the constructor allocates: `y` rows of `x` cells, all `false`. -/
def allFalse (y x : Nat) : Grid := List.replicate y (List.replicate x false)

/-- The grid of `y` rows of `x` cells, all `true`. -/
def allTrue (y x : Nat) : Grid := List.replicate y (List.replicate x true)

/-- The constructor `SecureBox(y, x)`. -/
def SecureBox.new (y x : Nat) (draws : List (Nat × Nat)) : Except Fault SecureBox :=
  SecureBox.shuffle ⟨allFalse y x, y, x, []⟩ draws

/-! ## The solver -/

/-- The function `isAllEqualOne(state)`. -/
def isAllEqualOne (state : Grid) : Except Fault Bool :=
  match state with
  | [] => .error .emptyState
  | row0 :: _ =>
    if state.length % 2 = row0.length % 2 then .ok false
    else .ok (state.all (fun row => row.all (fun colum => colum)))

/-- The function `toggleBoxByMask(state, box)`; it returns `box.getState()`,
and the box it has changed. -/
def toggleBoxByMask (state : Grid) (box : SecureBox) : Except Fault (Grid × SecureBox) :=
  match forRange state.length (fun row bx =>
      forRange (state.getD row []).length (fun colum bx =>
        if (state.getD row []).getD colum false then bx.toggle row colum else .ok bx) bx) box with
  | .error f => .error f
  | .ok bx => .ok (bx.getState, bx)

/-- The function `toggleByRowOrColum(y, box, state)`.  Both loops run up to
`state.size()`, the number of rows. -/
def toggleByRowOrColum (y : Nat) (box : SecureBox) (state : Grid) : Except Fault SecureBox :=
  if y % 2 ≠ 0 then
    forRange state.length (fun row bx => bx.toggle row 0) box
  else
    forRange state.length (fun colum bx => bx.toggle 0 colum) box

/-- The body of the `while` loop of `openBox`:
`if (isAllEqualOne(toggleBoxByMask(box.getState(), box))) toggleByRowOrColum(y, box, box.getState());` -/
def openBoxBody (y : Nat) (box : SecureBox) : Except Fault SecureBox :=
  match toggleBoxByMask box.getState box with
  | .error f => .error f
  | .ok (state, box1) =>
    match isAllEqualOne state with
    | .error f => .error f
    | .ok false => .ok box1
    | .ok true => toggleByRowOrColum y box1 box1.getState

/-- The loop `while (box.isLocked()) { ... }` of `openBox`, allowed to run
`fuel` iterations: `done box` when the loop exits and leaves `box`, `running`
when `isLocked` still holds after `fuel` iterations. -/
def openBoxLoop (y : Nat) : Nat → SecureBox → Outcome SecureBox
  | 0, box =>
    match box.isLocked with
    | .error f => .fault f
    | .ok false => .done box
    | .ok true => .running
  | fuel + 1, box =>
    match box.isLocked with
    | .error f => .fault f
    | .ok false => .done box
    | .ok true =>
      match openBoxBody y box with
      | .error f => .fault f
      | .ok box1 => openBoxLoop y fuel box1

/-- The function `openBox(y, x)`. -/
def openBox (y x : Nat) (draws : List (Nat × Nat)) (fuel : Nat) : Outcome Bool :=
  match SecureBox.new y x draws with
  | .error f => .fault f
  | .ok box =>
    match openBoxLoop y fuel box with
    | .fault f => .fault f
    | .running => .running
    | .done box1 =>
      match box1.isLocked with
      | .error f => .fault f
      | .ok v => .done v

/-! ## Vocabulary of the statements -/

/-- The cell `g[r][c]` of a grid (`false` outside of the grid). -/
def cell (g : Grid) (r c : Nat) : Bool := (g.getD r []).getD c false

/-- The grid `g` has `m` rows of `n` cells each. -/
def WFGrid (g : Grid) (m n : Nat) : Prop := g.length = m ∧ ∀ row ∈ g, row.length = n

/-- The class invariant of `SecureBox`: `box` has `ySize = m` rows of
`xSize = n` cells. -/
def SecureBox.WF (b : SecureBox) (m n : Nat) : Prop :=
  b.ySize = m ∧ b.xSize = n ∧ WFGrid b.box m n

/-- The cell `g[r][c]` as an element of the field with two elements. -/
def val (g : Grid) (r c : Nat) : ZMod 2 := if cell g r c then 1 else 0

/-- The flip pattern of `toggle(y, x)`: `1` on row `y` and on column `x`. -/
def tog (y x r c : Nat) : ZMod 2 := if r = y ∨ c = x then 1 else 0

/-- Calling `toggle` for the positions of a list, in the order of the list. -/
def applyToggles (b : SecureBox) : List (Nat × Nat) → Except Fault SecureBox
  | [] => .ok b
  | (y, x) :: rest =>
    match b.toggle y x with
    | .error f => .error f
    | .ok b1 => applyToggles b1 rest

/-- The positions of a `m × n` grid whose cell differs between `g` and `g1`. -/
def changedCells (g g1 : Grid) (m n : Nat) : Finset (Nat × Nat) :=
  (Finset.range m ×ˢ Finset.range n).filter (fun p => cell g p.1 p.2 ≠ cell g1 p.1 p.2)

instance (g : Grid) (m n : Nat) : Decidable (WFGrid g m n) :=
  inferInstanceAs (Decidable (g.length = m ∧ ∀ row ∈ g, row.length = n))

instance (b : SecureBox) (m n : Nat) : Decidable (b.WF m n) :=
  inferInstanceAs (Decidable (b.ySize = m ∧ b.xSize = n ∧ WFGrid b.box m n))

/-- The parity of the number of `true` cells in row `r` of a grid with `n`
columns. -/
def rowPar (g : Grid) (n r : Nat) : ZMod 2 := ∑ c in Finset.range n, val g r c

/-- The parity of the number of `true` cells in column `c` of a grid with `m`
rows. -/
def colPar (g : Grid) (m c : Nat) : ZMod 2 := ∑ r in Finset.range m, val g r c

/-- The positions of row `r` that are `true` in `state`, by increasing column. -/
def rowPositions (state : Grid) (r : Nat) : List (Nat × Nat) :=
  ((List.range (state.getD r []).length).filter (fun c => cell state r c)).map (fun c => (r, c))

/-- The positions that are `true` in `state`, in row-major order. -/
def maskPositions (state : Grid) : List (Nat × Nat) :=
  (List.range state.length).flatMap (rowPositions state)

/-- Every cell of the `m × n` box is `false`. -/
def SecureBox.Cleared (b : SecureBox) (m n : Nat) : Prop :=
  ∀ r c, r < m → c < n → cell b.box r c = false

/-- The box the constructor holds before `shuffle` runs. -/
def SecureBox.fresh (m n : Nat) : SecureBox := ⟨allFalse m n, m, n, []⟩

/-- The state `b` of a `m × n` box can be reached from the all-`false` grid by
a finite sequence of in-bounds `toggle` calls. -/
def Reachable (m n : Nat) (b : SecureBox) : Prop :=
  ∃ ps : List (Nat × Nat), (∀ p ∈ ps, p.1 < m ∧ p.2 < n) ∧
    applyToggles (SecureBox.fresh m n) ps = .ok b

/-- Two boxes that differ at most in the ghost history `calls`. -/
def SameBox (b c : SecureBox) : Prop :=
  b.box = c.box ∧ b.ySize = c.ySize ∧ b.xSize = c.xSize

/-- Two results that are the same fault, or boxes that differ at most in the
ghost history `calls`. -/
def SameResult (a c : Except Fault SecureBox) : Prop :=
  match a, c with
  | .ok x, .ok y => SameBox x y
  | .error f, .error g => f = g
  | _, _ => False

instance (b c : SecureBox) : Decidable (SameBox b c) :=
  inferInstanceAs (Decidable (b.box = c.box ∧ b.ySize = c.ySize ∧ b.xSize = c.xSize))

/-- The box `c` is locked, and the body of the loop of `openBox` takes it to
one of the boxes of `cs`, up to the ghost history. -/
def staysIn (y : Nat) (cs : List SecureBox) (c : SecureBox) : Bool :=
  match c.isLocked, openBoxBody y c with
  | .ok true, .ok c1 => cs.any (fun c2 => decide (SameBox c1 c2))
  | _, _ => false

instance {α : Type} [DecidableEq α] : DecidableEq (Except Fault α)
  | .ok a, .ok b =>
    if h : a = b then isTrue (congrArg Except.ok h)
    else isFalse (fun e => h (Except.ok.inj e))
  | .error f, .error g =>
    if h : f = g then isTrue (congrArg Except.error h)
    else isFalse (fun e => h (Except.error.inj e))
  | .ok _, .error _ => isFalse (fun e => Except.noConfusion e)
  | .error _, .ok _ => isFalse (fun e => Except.noConfusion e)

/-- The number of `true` cells in row `r` of a grid with `n` columns. -/
def rowCount (g : Grid) (n r : Nat) : Nat :=
  ((List.range n).filter (fun c => cell g r c)).length

/-- The number of `true` cells in column `c` of a grid with `m` rows. -/
def colCount (g : Grid) (m c : Nat) : Nat :=
  ((List.range m).filter (fun r => cell g r c)).length

/-! # Proofs -/

/-! ## Counting loops, and the effect of one `toggle` -/

theorem forRange_inv {σ : Type} (P : Nat → σ → Prop) (n : Nat)
    (body : Nat → σ → Except Fault σ) (s0 : σ) (h0 : P 0 s0)
    (hstep : ∀ k s, k < n → P k s → ∃ s1, body k s = .ok s1 ∧ P (k + 1) s1) :
    ∃ s1, forRange n body s0 = .ok s1 ∧ P n s1 := by
  induction n with
  | zero => exact ⟨s0, rfl, h0⟩
  | succ k ih =>
    obtain ⟨s1, h1, hP⟩ := ih (fun j s hj hs => hstep j s (Nat.lt_succ_of_lt hj) hs)
    obtain ⟨s2, h2, hP2⟩ := hstep k s1 (Nat.lt_succ_self k) hP
    exact ⟨s2, by simp [forRange, h1, h2], hP2⟩

theorem cell_set (g : Grid) (y : Nat) (row : List Bool) (r c : Nat) (hy : y < g.length) :
    cell (g.set y row) r c = if r = y then row.getD c false else cell g r c := by
  unfold cell
  by_cases h : r = y
  · subst h
    simp [List.getD_eq_getElem?_getD, List.getElem?_set, hy]
  · have h2 : ¬ y = r := fun e => h e.symm
    simp [List.getD_eq_getElem?_getD, List.getElem?_set, h, h2]

theorem flipCell_spec (g : Grid) (m n y x : Nat) (hg : WFGrid g m n) (hy : y < m) (hx : x < n) :
    ∃ g1, flipCell g y x = .ok g1 ∧ WFGrid g1 m n ∧
      ∀ r c, cell g1 r c = if r = y ∧ c = x then !cell g r c else cell g r c := by
  obtain ⟨hlen, hrows⟩ := hg
  have hy2 : y < g.length := by omega
  have hrow : (g[y]).length = n := hrows _ (List.getElem_mem _)
  have hx2 : x < (g[y]).length := by omega
  refine ⟨g.set y ((g[y]).set x (!(g[y])[x])), ?_, ?_, ?_⟩
  · simp [flipCell, List.getElem?_eq_getElem hy2, List.getElem?_eq_getElem hx2]
  · refine ⟨by simp [hlen], ?_⟩
    intro row hrow2
    rcases List.mem_or_eq_of_mem_set hrow2 with h | h
    · exact hrows _ h
    · simp [h, hrow]
  · intro r c
    rw [cell_set _ _ _ _ _ hy2]
    by_cases h : r = y
    · subst h
      by_cases h2 : c = x
      · subst h2
        simp [cell, List.getD_eq_getElem?_getD, List.getElem?_eq_getElem hy2, List.getElem?_set, hx2]
      · have h3 : ¬ x = c := fun e => h2 e.symm
        simp [cell, List.getD_eq_getElem?_getD, List.getElem?_eq_getElem hy2, List.getElem?_set, h2, h3]
    · simp [h]


theorem toggle_spec (b : SecureBox) (m n y x : Nat) (hb : b.WF m n) (hy : y < m) (hx : x < n) :
    ∃ b1, b.toggle y x = .ok b1 ∧ b1.WF m n ∧ b1.calls = b.calls ++ [(y, x)] ∧
      ∀ r c, r < m → c < n →
        cell b1.box r c = if r = y ∨ c = x then !cell b.box r c else cell b.box r c := by
  obtain ⟨hys, hxs, hg⟩ := hb
  obtain ⟨g0, e0, w0, c0⟩ := flipCell_spec b.box m n y x hg hy hx
  obtain ⟨g1, e1, w1, c1⟩ := forRange_inv
    (fun k g => WFGrid g m n ∧
      ∀ r c, cell g r c = if r = y ∧ c < k then !cell g0 r c else cell g0 r c)
    n (fun i g => flipCell g y i) g0 ⟨w0, by simp⟩
    (by
      rintro k g hk ⟨wg, cg⟩
      obtain ⟨g2, e2, w2, c2⟩ := flipCell_spec g m n y k wg hy hk
      refine ⟨g2, e2, w2, ?_⟩
      intro r c
      rw [c2, cg]
      have e : c < k + 1 ↔ (c < k ∨ c = k) := by omega
      by_cases h1 : r = y <;> by_cases h2 : c = k <;> by_cases h3 : c < k <;>
        simp [h1, h2, h3, e])
  obtain ⟨g2, e2, w2, c2⟩ := forRange_inv
    (fun k g => WFGrid g m n ∧
      ∀ r c, cell g r c = if c = x ∧ r < k then !cell g1 r c else cell g1 r c)
    m (fun i g => flipCell g i x) g1 ⟨w1, by simp⟩
    (by
      rintro k g hk ⟨wg, cg⟩
      obtain ⟨g3, e3, w3, c3⟩ := flipCell_spec g m n k x wg hk hx
      refine ⟨g3, e3, w3, ?_⟩
      intro r c
      rw [c3, cg]
      have e : r < k + 1 ↔ (r < k ∨ r = k) := by omega
      by_cases h1 : c = x <;> by_cases h2 : r = k <;> by_cases h3 : r < k <;>
        simp [h1, h2, h3, e])
  refine ⟨{ b with box := g2, calls := b.calls ++ [(y, x)] }, ?_, ⟨hys, hxs, w2⟩, rfl, ?_⟩
  · simp [SecureBox.toggle, e0, hxs, hys, e1, e2]
  · intro r c hr hc
    show cell g2 r c = _
    rw [c2, c1, c0]
    by_cases h1 : r = y <;> by_cases h2 : c = x <;> simp [h1, h2, hr, hc, hx, hy]

theorem val_eq_iff (g g1 : Grid) (r c : Nat) :
    val g r c = val g1 r c ↔ cell g r c = cell g1 r c := by
  unfold val
  cases cell g r c <;> cases cell g1 r c <;> simp

theorem grid_ext (g g1 : Grid) (m n : Nat) (hg : WFGrid g m n) (hg1 : WFGrid g1 m n)
    (h : ∀ r c, r < m → c < n → cell g r c = cell g1 r c) : g = g1 := by
  obtain ⟨l0, r0⟩ := hg
  obtain ⟨l1, r1⟩ := hg1
  apply List.ext_getElem (by omega)
  intro r h1 h2
  have a0 : (g[r]).length = n := r0 _ (List.getElem_mem _)
  have a1 : (g1[r]).length = n := r1 _ (List.getElem_mem _)
  apply List.ext_getElem (by omega)
  intro c h3 h4
  have := h r c (by omega) (by omega)
  simpa [cell, List.getD_eq_getElem?_getD, List.getElem?_eq_getElem h1,
    List.getElem?_eq_getElem h2, List.getElem?_eq_getElem h3,
    List.getElem?_eq_getElem h4] using this

theorem toggle_val (b : SecureBox) (m n y x : Nat) (hb : b.WF m n) (hy : y < m) (hx : x < n) :
    ∃ b1, b.toggle y x = .ok b1 ∧ b1.WF m n ∧ b1.calls = b.calls ++ [(y, x)] ∧
      ∀ r c, r < m → c < n → val b1.box r c = val b.box r c + tog y x r c := by
  obtain ⟨b1, e, w, l, h⟩ := toggle_spec b m n y x hb hy hx
  refine ⟨b1, e, w, l, ?_⟩
  intro r c hr hc
  unfold val tog
  rw [h r c hr hc]
  by_cases h1 : r = y ∨ c = x <;> cases cell b.box r c <;> simp [h1]
  decide

theorem applyToggles_spec (ps : List (Nat × Nat)) (m n : Nat)
    (hps : ∀ p ∈ ps, p.1 < m ∧ p.2 < n) (b : SecureBox) (hb : b.WF m n) :
    ∃ b1, applyToggles b ps = .ok b1 ∧ b1.WF m n ∧ b1.calls = b.calls ++ ps ∧
      ∀ r c, r < m → c < n →
        val b1.box r c = val b.box r c + (ps.map (fun p => tog p.1 p.2 r c)).sum := by
  induction ps generalizing b with
  | nil => exact ⟨b, rfl, hb, by simp, by simp⟩
  | cons p ps ih =>
    obtain ⟨y, x⟩ := p
    have hp := hps (y, x) (List.mem_cons_self _ _)
    obtain ⟨b1, e1, w1, l1, h1⟩ := toggle_val b m n y x hb hp.1 hp.2
    obtain ⟨b2, e2, w2, l2, h2⟩ := ih (fun q hq => hps q (List.mem_cons_of_mem _ hq)) b1 w1
    refine ⟨b2, by simp [applyToggles, e1, e2], w2, by simp [l2, l1], ?_⟩
    intro r c hr hc
    rw [h2 r c hr hc, h1 r c hr hc]
    simp [add_assoc]

theorem card_row_or_col (m n i j : Nat) (hi : i < m) (hj : j < n) :
    ((Finset.range m ×ˢ Finset.range n).filter (fun p => p.1 = i ∨ p.2 = j)).card
      = m + n - 1 := by
  have hS : (Finset.range m ×ˢ Finset.range n).filter (fun p => p.1 = i ∨ p.2 = j)
      = (({i} : Finset Nat) ×ˢ Finset.range n) ∪ (Finset.range m ×ˢ ({j} : Finset Nat)) := by
    ext ⟨r, c⟩
    simp only [Finset.mem_filter, Finset.mem_product, Finset.mem_range, Finset.mem_union,
      Finset.mem_singleton]
    constructor
    · rintro ⟨⟨h1, h2⟩, h3 | h3⟩
      · exact Or.inl ⟨h3, h2⟩
      · exact Or.inr ⟨h1, h3⟩
    · rintro (⟨h1, h2⟩ | ⟨h1, h2⟩)
      · exact ⟨⟨by omega, h2⟩, Or.inl h1⟩
      · exact ⟨⟨h1, by omega⟩, Or.inr h2⟩
  have hI : (({i} : Finset Nat) ×ˢ Finset.range n) ∩ (Finset.range m ×ˢ ({j} : Finset Nat))
      = {(i, j)} := by
    ext ⟨r, c⟩
    simp only [Finset.mem_inter, Finset.mem_product, Finset.mem_range, Finset.mem_singleton,
      Prod.mk.injEq]
    constructor
    · rintro ⟨⟨h1, _⟩, ⟨_, h4⟩⟩
      exact ⟨h1, h4⟩
    · rintro ⟨h1, h2⟩
      exact ⟨⟨h1, by omega⟩, ⟨by omega, h2⟩⟩
  have h := Finset.card_union_add_card_inter
    (({i} : Finset Nat) ×ˢ Finset.range n) (Finset.range m ×ˢ ({j} : Finset Nat))
  rw [hI] at h
  simp only [Finset.card_product, Finset.card_singleton, Finset.card_range] at h
  rw [hS]
  omega

/-- C4: on a `m × n` box, `toggle(i, j)` at a valid position succeeds, flips
every cell of row `i` and of column `j` (the cell `(i, j)` itself once net),
leaves every other cell unchanged, and so changes exactly `m + n - 1` cells. -/
theorem toggle_flips_row_and_column (b : SecureBox) (m n i j : Nat) (hb : b.WF m n)
    (hi : i < m) (hj : j < n) :
    ∃ b1, b.toggle i j = .ok b1 ∧ b1.WF m n ∧
      (∀ r c, r < m → c < n → (r = i ∨ c = j) → cell b1.box r c = !cell b.box r c) ∧
      (∀ r c, r < m → c < n → ¬ (r = i ∨ c = j) → cell b1.box r c = cell b.box r c) ∧
      cell b1.box i j = (!cell b.box i j) ∧
      (changedCells b.box b1.box m n).card = m + n - 1 := by
  obtain ⟨b1, e, w, _, h⟩ := toggle_spec b m n i j hb hi hj
  refine ⟨b1, e, w, ?_, ?_, ?_, ?_⟩
  · intro r c hr hc hrc
    rw [h r c hr hc, if_pos hrc]
  · intro r c hr hc hrc
    rw [h r c hr hc, if_neg hrc]
  · rw [h i j hi hj, if_pos (Or.inl rfl)]
  · rw [← card_row_or_col m n i j hi hj]
    congr 1
    unfold changedCells
    apply Finset.filter_congr
    rintro ⟨r, c⟩ hp
    simp only [Finset.mem_product, Finset.mem_range] at hp
    rw [h r c hp.1 hp.2]
    by_cases h1 : r = i ∨ c = j <;> cases cell b.box r c <;> simp [h1]

/-- C4 (witness): the toggle at `(0, 1)` of a `2 × 3` box. -/
theorem toggle_flips_row_and_column_witness :
    ∃ b1, SecureBox.toggle ⟨[[true, false, true], [false, false, true]], 2, 3, []⟩ 0 1 = .ok b1 ∧
      b1.WF 2 3 ∧
      (∀ r c, r < 2 → c < 3 → (r = 0 ∨ c = 1) →
        cell b1.box r c = !cell [[true, false, true], [false, false, true]] r c) ∧
      (∀ r c, r < 2 → c < 3 → ¬ (r = 0 ∨ c = 1) →
        cell b1.box r c = cell [[true, false, true], [false, false, true]] r c) ∧
      cell b1.box 0 1 = (!cell [[true, false, true], [false, false, true]] 0 1) ∧
      (changedCells [[true, false, true], [false, false, true]] b1.box 2 3).card = 2 + 3 - 1 :=
  toggle_flips_row_and_column ⟨[[true, false, true], [false, false, true]], 2, 3, []⟩ 2 3 0 1
    (by decide) (by decide) (by decide)

/-- C5: calling `toggle(i, j)` twice at a valid position gives back exactly
the grid one started from. -/
theorem toggle_twice (b : SecureBox) (m n i j : Nat) (hb : b.WF m n)
    (hi : i < m) (hj : j < n) :
    ∃ b1 b2, b.toggle i j = .ok b1 ∧ b1.toggle i j = .ok b2 ∧ b2.box = b.box := by
  obtain ⟨b1, e1, w1, _, h1⟩ := toggle_spec b m n i j hb hi hj
  obtain ⟨b2, e2, w2, _, h2⟩ := toggle_spec b1 m n i j w1 hi hj
  refine ⟨b1, b2, e1, e2, grid_ext _ _ m n w2.2.2 hb.2.2 ?_⟩
  intro r c hr hc
  rw [h2 r c hr hc, h1 r c hr hc]
  by_cases h : r = i ∨ c = j <;> simp [h]

/-- C5 (witness): toggling `(1, 2)` twice on a `2 × 3` box. -/
theorem toggle_twice_witness :
    ∃ b1 b2, SecureBox.toggle ⟨[[true, false, true], [false, false, true]], 2, 3, []⟩ 1 2 = .ok b1 ∧
      b1.toggle 1 2 = .ok b2 ∧ b2.box = [[true, false, true], [false, false, true]] :=
  toggle_twice ⟨[[true, false, true], [false, false, true]], 2, 3, []⟩ 2 3 1 2
    (by decide) (by decide) (by decide)

/-- C6: for a list of valid positions, toggling the positions in the order of
the list, or in the order of any permutation of it, succeeds and ends in the
same grid; in particular `toggle(a); toggle(b)` and `toggle(b); toggle(a)`. -/
theorem toggles_order_independent (b : SecureBox) (m n : Nat) (ps qs : List (Nat × Nat))
    (hb : b.WF m n) (hps : ∀ p ∈ ps, p.1 < m ∧ p.2 < n) (hperm : ps.Perm qs) :
    (∃ b1 b2, applyToggles b ps = .ok b1 ∧ applyToggles b qs = .ok b2 ∧ b1.box = b2.box) ∧
    (∀ p q, p ∈ ps → q ∈ ps → ∃ b1 b2,
      applyToggles b [p, q] = .ok b1 ∧ applyToggles b [q, p] = .ok b2 ∧ b1.box = b2.box) := by
  have key : ∀ (ps qs : List (Nat × Nat)), (∀ p ∈ ps, p.1 < m ∧ p.2 < n) → ps.Perm qs →
      ∃ b1 b2, applyToggles b ps = .ok b1 ∧ applyToggles b qs = .ok b2 ∧ b1.box = b2.box := by
    intro ps qs hps hperm
    have hqs : ∀ p ∈ qs, p.1 < m ∧ p.2 < n := fun p hp => hps p (hperm.mem_iff.mpr hp)
    obtain ⟨b1, e1, w1, _, h1⟩ := applyToggles_spec ps m n hps b hb
    obtain ⟨b2, e2, w2, _, h2⟩ := applyToggles_spec qs m n hqs b hb
    refine ⟨b1, b2, e1, e2, grid_ext _ _ m n w1.2.2 w2.2.2 ?_⟩
    intro r c hr hc
    rw [← val_eq_iff, h1 r c hr hc, h2 r c hr hc, (hperm.map _).sum_eq]
  refine ⟨key ps qs hps hperm, ?_⟩
  intro p q hp hq
  refine key [p, q] [q, p] ?_ (List.Perm.swap q p [])
  intro a ha
  simp only [List.mem_cons, List.mem_singleton, List.not_mem_nil, or_false] at ha
  rcases ha with rfl | rfl
  · exact hps _ hp
  · exact hps _ hq

/-- C6 (witness): three toggles on a `2 × 3` box, in two orders. -/
theorem toggles_order_independent_witness :
    (∃ b1 b2,
      applyToggles ⟨[[true, false, true], [false, false, true]], 2, 3, []⟩
        [(0, 0), (1, 2), (0, 1)] = .ok b1 ∧
      applyToggles ⟨[[true, false, true], [false, false, true]], 2, 3, []⟩
        [(0, 1), (0, 0), (1, 2)] = .ok b2 ∧ b1.box = b2.box) ∧
    (∀ p q, p ∈ [(0, 0), (1, 2), (0, 1)] → q ∈ [(0, 0), (1, 2), (0, 1)] → ∃ b1 b2,
      applyToggles ⟨[[true, false, true], [false, false, true]], 2, 3, []⟩ [p, q] = .ok b1 ∧
      applyToggles ⟨[[true, false, true], [false, false, true]], 2, 3, []⟩ [q, p] = .ok b2 ∧
      b1.box = b2.box) :=
  toggles_order_independent ⟨[[true, false, true], [false, false, true]], 2, 3, []⟩ 2 3
    [(0, 0), (1, 2), (0, 1)] [(0, 1), (0, 0), (1, 2)] (by decide) (by decide) (by decide)

/-! ## `isLocked` and `isAllEqualOne` -/

theorem readCell_spec (g : Grid) (m n y x : Nat) (hg : WFGrid g m n) (hy : y < m) (hx : x < n) :
    readCell g y x = .ok (cell g y x) := by
  obtain ⟨hlen, hrows⟩ := hg
  have hy2 : y < g.length := by omega
  have hrow : (g[y]).length = n := hrows _ (List.getElem_mem _)
  have hx2 : x < (g[y]).length := by omega
  simp [readCell, cell, List.getD_eq_getElem?_getD, List.getElem?_eq_getElem hy2,
    List.getElem?_eq_getElem hx2]

theorem readCell_ok (g : Grid) (y x : Nat) (v : Bool) (h : readCell g y x = .ok v) :
    cell g y x = v := by
  unfold readCell at h
  unfold cell
  cases hy : g[y]? with
  | none => simp [hy] at h
  | some row =>
    cases hx : row[x]? with
    | none => simp [hy, hx] at h
    | some w =>
      simp [hy, hx] at h
      simp [List.getD_eq_getElem?_getD, hy, hx, h]

theorem forRange_succ_ok {σ : Type} (k : Nat) (body : Nat → σ → Except Fault σ) (s s2 : σ)
    (h : forRange (k + 1) body s = .ok s2) :
    ∃ s1, forRange k body s = .ok s1 ∧ body k s1 = .ok s2 := by
  unfold forRange at h
  cases h1 : forRange k body s with
  | error f => simp [h1] at h
  | ok s1 => exact ⟨s1, rfl, by simpa [h1] using h⟩

theorem scan_false (g : Grid) (x k : Nat) (found : Bool)
    (h : forRange k (fun y f => if f then .ok true else readCell g y x) found = .ok false) :
    found = false ∧ ∀ y, y < k → cell g y x = false := by
  induction k with
  | zero =>
    simp only [forRange, Except.ok.injEq] at h
    exact ⟨h, fun y hy => absurd hy (Nat.not_lt_zero y)⟩
  | succ k ih =>
    obtain ⟨f1, e1, e2⟩ := forRange_succ_ok k _ found false h
    cases f1 with
    | true => simp at e2
    | false =>
      obtain ⟨h1, h2⟩ := ih e1
      refine ⟨h1, fun y hy => ?_⟩
      simp only [Bool.false_eq_true, if_false] at e2
      rcases Nat.lt_succ_iff_lt_or_eq.mp hy with h3 | h3
      · exact h2 y h3
      · subst h3
        exact readCell_ok g _ x false e2

theorem scan_true (g : Grid) (x k : Nat) (found : Bool)
    (h : forRange k (fun y f => if f then .ok true else readCell g y x) found = .ok true) :
    found = true ∨ ∃ y, y < k ∧ cell g y x = true := by
  induction k with
  | zero =>
    simp only [forRange, Except.ok.injEq] at h
    exact Or.inl h
  | succ k ih =>
    obtain ⟨f1, e1, e2⟩ := forRange_succ_ok k _ found true h
    cases f1 with
    | true =>
      rcases ih e1 with h1 | ⟨y, hy, hc⟩
      · exact Or.inl h1
      · exact Or.inr ⟨y, Nat.lt_succ_of_lt hy, hc⟩
    | false =>
      simp only [Bool.false_eq_true, if_false] at e2
      exact Or.inr ⟨k, Nat.lt_succ_self k, readCell_ok g _ x true e2⟩

theorem isLocked_false (b : SecureBox) (h : b.isLocked = .ok false) :
    ∀ r c, r < b.ySize → c < b.xSize → cell b.box r c = false := by
  have key : ∀ k found, forRange k (fun x found =>
      forRange b.ySize (fun y f => if f then .ok true else readCell b.box y x) found) found
        = .ok false →
      found = false ∧ ∀ r c, r < b.ySize → c < k → cell b.box r c = false := by
    intro k
    induction k with
    | zero =>
      intro found h
      simp only [forRange, Except.ok.injEq] at h
      exact ⟨h, fun r c _ hc => absurd hc (Nat.not_lt_zero c)⟩
    | succ k ih =>
      intro found h
      obtain ⟨f1, e1, e2⟩ := forRange_succ_ok k _ found false h
      obtain ⟨h1, h2⟩ := scan_false b.box k b.ySize f1 e2
      subst h1
      obtain ⟨h3, h4⟩ := ih found e1
      refine ⟨h3, fun r c hr hc => ?_⟩
      rcases Nat.lt_succ_iff_lt_or_eq.mp hc with h5 | h5
      · exact h4 r c hr h5
      · subst h5
        exact h2 r hr
  intro r c hr hc
  exact (key b.xSize false h).2 r c hr hc

theorem isLocked_true (b : SecureBox) (h : b.isLocked = .ok true) :
    ∃ r c, r < b.ySize ∧ c < b.xSize ∧ cell b.box r c = true := by
  have key : ∀ k found, forRange k (fun x found =>
      forRange b.ySize (fun y f => if f then .ok true else readCell b.box y x) found) found
        = .ok true →
      found = true ∨ ∃ r c, r < b.ySize ∧ c < k ∧ cell b.box r c = true := by
    intro k
    induction k with
    | zero =>
      intro found h
      simp only [forRange, Except.ok.injEq] at h
      exact Or.inl h
    | succ k ih =>
      intro found h
      obtain ⟨f1, e1, e2⟩ := forRange_succ_ok k _ found true h
      rcases scan_true b.box k b.ySize f1 e2 with h1 | ⟨y, hy, hc⟩
      · subst h1
        rcases ih found e1 with h2 | ⟨r, c, hr, hc, hv⟩
        · exact Or.inl h2
        · exact Or.inr ⟨r, c, hr, Nat.lt_succ_of_lt hc, hv⟩
      · exact Or.inr ⟨y, k, hy, Nat.lt_succ_self k, hc⟩
  rcases key b.xSize false h with h1 | h1
  · exact absurd h1 (by simp)
  · exact h1

theorem isLocked_spec (b : SecureBox) (m n : Nat) (hb : b.WF m n) :
    ∃ v, b.isLocked = .ok v ∧
      (v = true ↔ ∃ r c, r < m ∧ c < n ∧ cell b.box r c = true) := by
  obtain ⟨hys, hxs, hg⟩ := hb
  obtain ⟨v, e, hv⟩ := forRange_inv
    (fun k found => found = true ↔ ∃ r c, r < m ∧ c < k ∧ cell b.box r c = true)
    n (fun x found =>
      forRange b.ySize (fun y f => if f then .ok true else readCell b.box y x) found) false
    (by simp)
    (by
      intro k found hk hfound
      rw [hys]
      obtain ⟨v, e, hv⟩ := forRange_inv
        (fun j f => f = true ↔ (found = true ∨ ∃ r, r < j ∧ cell b.box r k = true))
        m (fun y f => if f then .ok true else readCell b.box y k) found
        (by simp)
        (by
          intro j f hj hf
          cases f with
          | true =>
            refine ⟨true, by simp, ?_⟩
            simp only [true_iff]
            rcases hf.mp rfl with h1 | ⟨r, hr, hc⟩
            · exact Or.inl h1
            · exact Or.inr ⟨r, Nat.lt_succ_of_lt hr, hc⟩
          | false =>
            refine ⟨cell b.box j k, by simp [readCell_spec b.box m n j k hg hj hk], ?_⟩
            have hf2 : ¬ (found = true ∨ ∃ r, r < j ∧ cell b.box r k = true) := by
              intro h
              exact absurd (hf.mpr h) (by simp)
            constructor
            · intro hc
              exact Or.inr ⟨j, Nat.lt_succ_self j, hc⟩
            · rintro (h1 | ⟨r, hr, hc⟩)
              · exact absurd (Or.inl h1) hf2
              · rcases Nat.lt_succ_iff_lt_or_eq.mp hr with h3 | h3
                · exact absurd (Or.inr ⟨r, h3, hc⟩) hf2
                · subst h3
                  exact hc)
      refine ⟨v, e, ?_⟩
      show v = true ↔ ∃ r c, r < m ∧ c < k + 1 ∧ cell b.box r c = true
      rw [hv, hfound]
      constructor
      · rintro (⟨r, c, hr, hc, h⟩ | ⟨r, hr, h⟩)
        · exact ⟨r, c, hr, Nat.lt_succ_of_lt hc, h⟩
        · exact ⟨r, k, hr, Nat.lt_succ_self k, h⟩
      · rintro ⟨r, c, hr, hc, h⟩
        rcases Nat.lt_succ_iff_lt_or_eq.mp hc with h3 | h3
        · exact Or.inl ⟨r, c, hr, h3, h⟩
        · subst h3
          exact Or.inr ⟨r, hr, h⟩)
  refine ⟨v, ?_, hv⟩
  unfold SecureBox.isLocked
  rw [hxs]
  exact e

/-! ## One pass of `toggleBoxByMask` -/

theorem tog_split (i j r c : Nat) :
    tog i j r c = (if r = i then 1 else 0) + (if c = j then 1 else 0)
      + (if r = i then 1 else 0) * (if c = j then 1 else 0) := by
  unfold tog
  by_cases h1 : r = i <;> by_cases h2 : c = j <;> simp [h1, h2]
  decide

theorem mask_sum (s : Grid) (m n r c : Nat) (hr : r < m) (hc : c < n) :
    ∑ i in Finset.range m, ∑ j in Finset.range n, val s i j * tog i j r c
      = rowPar s n r + colPar s m c + val s r c := by
  have e1 : ∑ i in Finset.range m, ∑ j in Finset.range n,
      val s i j * (if r = i then 1 else 0) = rowPar s n r := by
    rw [Finset.sum_comm]
    unfold rowPar
    apply Finset.sum_congr rfl
    intro j _
    simp [Finset.sum_ite_eq, hr]
  have e2 : ∑ i in Finset.range m, ∑ j in Finset.range n,
      val s i j * (if c = j then 1 else 0) = colPar s m c := by
    unfold colPar
    apply Finset.sum_congr rfl
    intro i _
    simp [Finset.sum_ite_eq, hc]
  have e3 : ∑ i in Finset.range m, ∑ j in Finset.range n,
      val s i j * ((if r = i then 1 else 0) * (if c = j then 1 else 0)) = val s r c := by
    rw [Finset.sum_eq_single r]
    · simp [Finset.sum_ite_eq, hc]
    · intro i _ hi
      have : ¬ r = i := fun e => hi e.symm
      simp [this]
    · intro h
      simp [hr] at h
  simp only [tog_split, mul_add, Finset.sum_add_distrib, e1, e2, e3]

theorem getD_length (s : Grid) (m n k : Nat) (hs : WFGrid s m n) (hk : k < m) :
    (s.getD k []).length = n := by
  obtain ⟨hlen, hrows⟩ := hs
  have hk2 : k < s.length := by omega
  have : s.getD k [] = s[k] := by
    simp [List.getD_eq_getElem?_getD, List.getElem?_eq_getElem hk2]
  rw [this]
  exact hrows _ (List.getElem_mem _)

theorem mask_row_spec (s : Grid) (b : SecureBox) (m n k : Nat) (hb : b.WF m n) (hk : k < m)
    (l : Nat) (hl : l ≤ n) :
    ∃ b1, forRange l (fun colum bx =>
        if (s.getD k []).getD colum false then bx.toggle k colum else .ok bx) b = .ok b1 ∧
      b1.WF m n ∧
      b1.calls = b.calls ++ ((List.range l).filter (fun c => cell s k c)).map (fun c => (k, c)) ∧
      ∀ r c, r < m → c < n →
        val b1.box r c = val b.box r c + ∑ j in Finset.range l, val s k j * tog k j r c := by
  refine forRange_inv (fun l b1 => b1.WF m n ∧
      b1.calls = b.calls ++ ((List.range l).filter (fun c => cell s k c)).map (fun c => (k, c)) ∧
      ∀ r c, r < m → c < n →
        val b1.box r c = val b.box r c + ∑ j in Finset.range l, val s k j * tog k j r c)
    l _ b ?_ ?_
  · exact ⟨hb, by simp, by simp⟩
  · rintro j bx hj ⟨w, hcalls, hval⟩
    have hcell : (s.getD k []).getD j false = cell s k j := rfl
    rw [hcell]
    cases hv : cell s k j with
    | true =>
      obtain ⟨b2, e2, w2, l2, h2⟩ := toggle_val bx m n k j w hk (by omega)
      refine ⟨b2, by simpa using e2, w2, ?_, ?_⟩
      · rw [l2, hcalls, List.range_succ]
        simp [List.filter_append, hv]
      · intro r c hr hc
        rw [h2 r c hr hc, hval r c hr hc, Finset.sum_range_succ]
        simp [val, hv, add_assoc]
    | false =>
      refine ⟨bx, by simp, w, ?_, ?_⟩
      · rw [hcalls, List.range_succ]
        simp [List.filter_append, hv]
      · intro r c hr hc
        rw [hval r c hr hc, Finset.sum_range_succ]
        simp [val, hv]

theorem toggleBoxByMask_spec (s : Grid) (b : SecureBox) (m n : Nat) (hs : WFGrid s m n)
    (hb : b.WF m n) :
    ∃ b1, toggleBoxByMask s b = .ok (b1.box, b1) ∧ b1.WF m n ∧
      b1.calls = b.calls ++ maskPositions s ∧
      ∀ r c, r < m → c < n →
        val b1.box r c = val b.box r c + (rowPar s n r + colPar s m c + val s r c) := by
  obtain ⟨b1, e, w, hcalls, hval⟩ := forRange_inv (fun k b1 => b1.WF m n ∧
      b1.calls = b.calls ++ (List.range k).flatMap (rowPositions s) ∧
      ∀ r c, r < m → c < n → val b1.box r c = val b.box r c +
        ∑ i in Finset.range k, ∑ j in Finset.range n, val s i j * tog i j r c)
    m (fun row bx =>
      forRange (s.getD row []).length (fun colum bx =>
        if (s.getD row []).getD colum false then bx.toggle row colum else .ok bx) bx) b
    ⟨hb, by simp, by simp⟩
    (by
      rintro k bx hk ⟨w, hcalls, hval⟩
      obtain ⟨b2, e2, w2, l2, h2⟩ := mask_row_spec s bx m n k w hk n (le_refl n)
      refine ⟨b2, ?_, w2, ?_, ?_⟩
      · show forRange (s.getD k []).length _ bx = _
        rw [getD_length s m n k hs hk]
        exact e2
      · rw [l2, hcalls, List.range_succ, List.flatMap_append, List.flatMap_singleton,
          rowPositions, getD_length s m n k hs hk, List.append_assoc]
      · intro r c hr hc
        rw [h2 r c hr hc, hval r c hr hc, Finset.sum_range_succ, add_assoc])
  refine ⟨b1, ?_, w, ?_, ?_⟩
  · unfold toggleBoxByMask
    rw [hs.1, e]
    rfl
  · rw [hcalls, maskPositions, hs.1]
  · intro r c hr hc
    rw [hval r c hr hc, mask_sum s m n r c hr hc]

theorem val_add_self (g : Grid) (r c : Nat) : val g r c + val g r c = 0 :=
  CharTwo.add_self_eq_zero _

/-- After one pass of `toggleBoxByMask` on the box's own state, the cell
`(r, c)` is the sum of the parities of row `r` and of column `c`. -/
theorem mask_pass (b : SecureBox) (m n : Nat) (hb : b.WF m n) :
    ∃ b1, toggleBoxByMask b.getState b = .ok (b1.box, b1) ∧ b1.WF m n ∧
      b1.calls = b.calls ++ maskPositions b.box ∧
      ∀ r c, r < m → c < n → val b1.box r c = rowPar b.box n r + colPar b.box m c := by
  obtain ⟨b1, e, w, hcalls, hval⟩ := toggleBoxByMask_spec b.box b m n hb.2.2 hb
  refine ⟨b1, e, w, hcalls, ?_⟩
  intro r c hr hc
  rw [hval r c hr hc]
  have := val_add_self b.box r c
  calc val b.box r c + (rowPar b.box n r + colPar b.box m c + val b.box r c)
      = rowPar b.box n r + colPar b.box m c + (val b.box r c + val b.box r c) := by ring
    _ = rowPar b.box n r + colPar b.box m c := by rw [this, add_zero]

theorem val_eq_one_iff (g : Grid) (r c : Nat) : val g r c = 1 ↔ cell g r c = true := by
  unfold val
  cases cell g r c <;> simp

theorem val_eq_zero_iff (g : Grid) (r c : Nat) : val g r c = 0 ↔ cell g r c = false := by
  unfold val
  cases cell g r c <;> simp

theorem zmod2_cases (k : ZMod 2) : k = 0 ∨ k = 1 := by
  fin_cases k
  · exact Or.inl rfl
  · exact Or.inr rfl

theorem natCast_odd (m : Nat) (h : m % 2 = 1) : (m : ZMod 2) = 1 :=
  (ZMod.eq_one_iff_odd).mpr (Nat.odd_iff.mpr h)

theorem natCast_even (m : Nat) (h : m % 2 = 0) : (m : ZMod 2) = 0 :=
  (ZMod.eq_zero_iff_even).mpr (Nat.even_iff.mpr h)

theorem cell_eq_getElem (s : Grid) (r c : Nat) (hr : r < s.length) (hc : c < (s[r]).length) :
    cell s r c = (s[r])[c] := by
  simp [cell, List.getD_eq_getElem?_getD, List.getElem?_eq_getElem hr,
    List.getElem?_eq_getElem hc]

theorem isAllEqualOne_spec (s : Grid) (m n : Nat) (hs : WFGrid s m n) (hm : 0 < m) :
    ∃ v, isAllEqualOne s = .ok v ∧
      (v = true ↔ (m % 2 ≠ n % 2 ∧ ∀ r c, r < m → c < n → cell s r c = true)) := by
  obtain ⟨hlen, hrows⟩ := hs
  have hall : (s.all (fun row => row.all (fun colum => colum))) = true ↔
      ∀ r c, r < m → c < n → cell s r c = true := by
    simp only [List.all_eq_true]
    constructor
    · intro h r c hr hc
      have hr2 : r < s.length := by omega
      have hc2 : c < (s[r]).length := by rw [hrows _ (List.getElem_mem _)]; exact hc
      rw [cell_eq_getElem s r c hr2 hc2]
      exact h _ (List.getElem_mem _) _ (List.getElem_mem _)
    · intro h row hrow v hv
      obtain ⟨r, hr, rfl⟩ := List.getElem_of_mem hrow
      obtain ⟨c, hc, rfl⟩ := List.getElem_of_mem hv
      rw [← cell_eq_getElem s r c hr hc]
      exact h r c (by omega) (by rw [← hrows _ (List.getElem_mem hr)]; exact hc)
  cases s with
  | nil => simp at hlen; omega
  | cons row0 rest =>
    have h0 : row0.length = n := hrows row0 (List.mem_cons_self _ _)
    by_cases hp : m % 2 = n % 2
    · refine ⟨false, ?_, by simp [hp]⟩
      simp only [isAllEqualOne, hlen, h0, hp, if_true]
    · refine ⟨(row0 :: rest).all (fun row => row.all (fun colum => colum)), ?_, ?_⟩
      · simp only [isAllEqualOne, hlen, h0, hp, if_false]
      · rw [hall]
        simp [hp]

theorem sum_tog_rows (m y x c : Nat) (hy : y < m) :
    ∑ r in Finset.range m, tog y x r c = if c = x then (m : ZMod 2) else 1 := by
  unfold tog
  by_cases h : c = x
  · simp [h]
  · simp [h, Finset.sum_ite_eq', hy]

theorem sum_tog_cols (n y x r : Nat) (hx : x < n) :
    ∑ c in Finset.range n, tog y x r c = if r = y then (n : ZMod 2) else 1 := by
  unfold tog
  by_cases h : r = y
  · simp [h]
  · simp [h, Finset.sum_ite_eq', hx]

theorem sum_tog_column_zero (m r c : Nat) (hr : r < m) :
    ∑ i in Finset.range m, tog i 0 r c = if c = 0 then (m : ZMod 2) else 1 := by
  unfold tog
  by_cases h : c = 0
  · simp [h]
  · simp [h, Finset.sum_ite_eq, hr]

/-- The branch `y % 2 != 0` of `toggleByRowOrColum`: it toggles `(row, 0)` for
every row, which adds to the cell `(r, c)` the number of rows when `c = 0`
and `1` otherwise. -/
theorem toggleByRow_spec (y : Nat) (b : SecureBox) (s : Grid) (m n : Nat) (hy : y % 2 ≠ 0)
    (hb : b.WF m n) (hs : s.length = m) (hn : 0 < n) :
    ∃ b1, toggleByRowOrColum y b s = .ok b1 ∧ b1.WF m n ∧
      b1.calls = b.calls ++ (List.range m).map (fun row => (row, 0)) ∧
      ∀ r c, r < m → c < n →
        val b1.box r c = val b.box r c + if c = 0 then (m : ZMod 2) else 1 := by
  obtain ⟨b1, e, w, hcalls, hval⟩ := forRange_inv (fun k b1 => b1.WF m n ∧
      b1.calls = b.calls ++ (List.range k).map (fun row => (row, 0)) ∧
      ∀ r c, r < m → c < n →
        val b1.box r c = val b.box r c + ∑ i in Finset.range k, tog i 0 r c)
    m (fun row bx => bx.toggle row 0) b ⟨hb, by simp, by simp⟩
    (by
      rintro k bx hk ⟨w, hcalls, hval⟩
      obtain ⟨b2, e2, w2, l2, h2⟩ := toggle_val bx m n k 0 w hk hn
      refine ⟨b2, e2, w2, ?_, ?_⟩
      · rw [l2, hcalls, List.range_succ, List.map_append, List.append_assoc]
        rfl
      · intro r c hr hc
        rw [h2 r c hr hc, hval r c hr hc, Finset.sum_range_succ, add_assoc])
  refine ⟨b1, ?_, w, hcalls, ?_⟩
  · unfold toggleByRowOrColum
    rw [if_pos hy, hs]
    exact e
  · intro r c hr hc
    rw [hval r c hr hc, sum_tog_column_zero m r c hr]

/-! ## The loop of `openBox`, one iteration at a time -/

theorem loop_done (y fuel : Nat) (b : SecureBox) (h : b.isLocked = .ok false) :
    openBoxLoop y fuel b = .done b := by
  cases fuel <;> simp [openBoxLoop, h]

theorem loop_step (y fuel : Nat) (b b1 : SecureBox) (h : b.isLocked = .ok true)
    (hb : openBoxBody y b = .ok b1) :
    openBoxLoop y (fuel + 1) b = openBoxLoop y fuel b1 := by
  simp [openBoxLoop, h, hb]

theorem body_plain (y : Nat) (b b1 : SecureBox) (s : Grid)
    (hm : toggleBoxByMask b.getState b = .ok (s, b1)) (ha : isAllEqualOne s = .ok false) :
    openBoxBody y b = .ok b1 := by
  simp [openBoxBody, hm, ha]

theorem body_escape (y : Nat) (b b1 b2 : SecureBox) (s : Grid)
    (hm : toggleBoxByMask b.getState b = .ok (s, b1)) (ha : isAllEqualOne s = .ok true)
    (ht : toggleByRowOrColum y b1 b1.getState = .ok b2) :
    openBoxBody y b = .ok b2 := by
  simp [openBoxBody, hm, ha, ht]

theorem loop_mono (y : Nat) (fuel : Nat) (b b1 : SecureBox)
    (h : openBoxLoop y fuel b = .done b1) : openBoxLoop y (fuel + 1) b = .done b1 := by
  induction fuel generalizing b with
  | zero =>
    cases hl : b.isLocked with
    | error f => simp [openBoxLoop, hl] at h
    | ok v =>
      cases v with
      | false =>
        rw [loop_done y 0 b hl] at h
        rw [loop_done y 1 b hl, h]
      | true => simp [openBoxLoop, hl] at h
  | succ k ih =>
    cases hl : b.isLocked with
    | error f => simp [openBoxLoop, hl] at h
    | ok v =>
      cases v with
      | false =>
        rw [loop_done y (k + 1) b hl] at h
        rw [loop_done y (k + 1 + 1) b hl, h]
      | true =>
        cases hb : openBoxBody y b with
        | error f => simp [openBoxLoop, hl, hb] at h
        | ok b2 =>
          rw [loop_step y k b b2 hl hb] at h
          rw [loop_step y (k + 1) b b2 hl hb]
          exact ih b2 h

theorem loop_mono_le (y : Nat) (f1 f2 : Nat) (hle : f1 ≤ f2) (b b1 : SecureBox)
    (h : openBoxLoop y f1 b = .done b1) : openBoxLoop y f2 b = .done b1 := by
  induction f2 with
  | zero =>
    have : f1 = 0 := by omega
    subst this
    exact h
  | succ k ih =>
    rcases Nat.lt_or_ge f1 (k + 1) with h1 | h1
    · exact loop_mono y k b b1 (ih (by omega))
    · have : f1 = k + 1 := by omega
      subst this
      exact h

theorem isLocked_of_cleared (b : SecureBox) (m n : Nat) (hb : b.WF m n) (hc : b.Cleared m n) :
    b.isLocked = .ok false := by
  obtain ⟨v, e, hv⟩ := isLocked_spec b m n hb
  cases v with
  | false => exact e
  | true =>
    obtain ⟨r, c, hr, hc2, h⟩ := hv.mp rfl
    rw [hc r c hr hc2] at h
    exact absurd h (by simp)

theorem isLocked_cases (b : SecureBox) (m n : Nat) (hb : b.WF m n) :
    (b.isLocked = .ok false ∧ b.Cleared m n) ∨ b.isLocked = .ok true := by
  obtain ⟨v, e, _⟩ := isLocked_spec b m n hb
  cases v with
  | true => exact Or.inr e
  | false =>
    refine Or.inl ⟨e, ?_⟩
    intro r c hr hc
    exact isLocked_false b e r c (by rw [hb.1]; exact hr) (by rw [hb.2.1]; exact hc)

theorem cleared_of_val (b : SecureBox) (m n : Nat)
    (h : ∀ r c, r < m → c < n → val b.box r c = 0) : b.Cleared m n :=
  fun r c hr hc => (val_eq_zero_iff b.box r c).mp (h r c hr hc)

/-! ## Row and column parities -/

theorem rowPar_of_form (g : Grid) (m n : Nat) (f h : Nat → ZMod 2)
    (hval : ∀ r c, r < m → c < n → val g r c = f r + h c) (r : Nat) (hr : r < m) :
    rowPar g n r = (n : ZMod 2) * f r + ∑ c in Finset.range n, h c := by
  unfold rowPar
  rw [Finset.sum_congr rfl (fun c hc => hval r c hr (Finset.mem_range.mp hc)),
    Finset.sum_add_distrib, Finset.sum_const, Finset.card_range, nsmul_eq_mul]

theorem colPar_of_form (g : Grid) (m n : Nat) (f h : Nat → ZMod 2)
    (hval : ∀ r c, r < m → c < n → val g r c = f r + h c) (c : Nat) (hc : c < n) :
    colPar g m c = ∑ r in Finset.range m, f r + (m : ZMod 2) * h c := by
  unfold colPar
  rw [Finset.sum_congr rfl (fun r hr => hval r c (Finset.mem_range.mp hr) hc),
    Finset.sum_add_distrib, Finset.sum_const, Finset.card_range, nsmul_eq_mul]

theorem sum_rowPar_eq_sum_colPar (g : Grid) (m n : Nat) :
    ∑ r in Finset.range m, rowPar g n r = ∑ c in Finset.range n, colPar g m c := by
  unfold rowPar colPar
  exact Finset.sum_comm

/-! ## Iterations of the loop, for the parities of the sides -/

/-- An iteration of the loop on a box whose sides have the same parity: the
parity test of `isAllEqualOne` fails, so the iteration is one mask pass. -/
theorem iteration_same_parity (b : SecureBox) (m n fuel : Nat) (hb : b.WF m n) (hm : 0 < m)
    (hp : m % 2 = n % 2) (hl : b.isLocked = .ok true) :
    ∃ b1, openBoxLoop m (fuel + 1) b = openBoxLoop m fuel b1 ∧ b1.WF m n ∧
      ∀ r c, r < m → c < n → val b1.box r c = rowPar b.box n r + colPar b.box m c := by
  obtain ⟨b1, e1, w1, _, h1⟩ := mask_pass b m n hb
  obtain ⟨v, ea, hv⟩ := isAllEqualOne_spec b1.box m n w1.2.2 hm
  have hvf : v = false := by
    cases v with
    | false => rfl
    | true => exact absurd hp (hv.mp rfl).1
  subst hvf
  exact ⟨b1, loop_step m fuel b b1 hl (body_plain m b b1 b1.box e1 ea), w1, h1⟩

/-- An iteration of the loop on a box with an odd number of rows and an even
number of columns: a mask pass, followed by a toggle of `(row, 0)` for every
row when the mask pass leaves every cell `true`, which then clears the box. -/
theorem iteration_odd_even (b : SecureBox) (m n fuel : Nat) (hb : b.WF m n) (hn : 0 < n)
    (om : m % 2 = 1) (en : n % 2 = 0) (hl : b.isLocked = .ok true) :
    ∃ b1, openBoxLoop m (fuel + 1) b = openBoxLoop m fuel b1 ∧ b1.WF m n ∧
      (b1.Cleared m n ∨
        ((¬ ∀ r c, r < m → c < n → rowPar b.box n r + colPar b.box m c = 1) ∧
          ∀ r c, r < m → c < n → val b1.box r c = rowPar b.box n r + colPar b.box m c)) := by
  have hm : 0 < m := by omega
  obtain ⟨b1, e1, w1, _, h1⟩ := mask_pass b m n hb
  obtain ⟨v, ea, hv⟩ := isAllEqualOne_spec b1.box m n w1.2.2 hm
  cases v with
  | false =>
    refine ⟨b1, loop_step m fuel b b1 hl (body_plain m b b1 b1.box e1 ea), w1, Or.inr ⟨?_, h1⟩⟩
    intro hall
    have : false = true := hv.mpr ⟨by omega, fun r c hr hc => by
      rw [← val_eq_one_iff, h1 r c hr hc]
      exact hall r c hr hc⟩
    exact absurd this (by simp)
  | true =>
    obtain ⟨b2, e2, w2, _, h2⟩ := toggleByRow_spec m b1 b1.getState m n (by omega) w1
      w1.2.2.1 hn
    refine ⟨b2, loop_step m fuel b b2 hl (body_escape m b b1 b2 b1.box e1 ea e2), w2, Or.inl ?_⟩
    apply cleared_of_val
    intro r c hr hc
    have hone : val b1.box r c = 1 := (val_eq_one_iff _ _ _).mpr ((hv.mp rfl).2 r c hr hc)
    rw [h2 r c hr hc, hone, natCast_odd m om]
    split_ifs <;> decide

theorem loop_even_even (b : SecureBox) (m n : Nat) (hb : b.WF m n) (hm : 0 < m)
    (em : m % 2 = 0) (en : n % 2 = 0) :
    ∃ b1, openBoxLoop m 2 b = .done b1 ∧ b1.WF m n ∧ b1.Cleared m n := by
  rcases isLocked_cases b m n hb with ⟨e, hc⟩ | e
  · exact ⟨b, loop_done m 2 b e, hb, hc⟩
  obtain ⟨b1, s1, w1, h1⟩ := iteration_same_parity b m n 1 hb hm (by omega) e
  rw [s1]
  rcases isLocked_cases b1 m n w1 with ⟨e1, hc1⟩ | e1
  · exact ⟨b1, loop_done m 1 b1 e1, w1, hc1⟩
  obtain ⟨b2, s2, w2, h2⟩ := iteration_same_parity b1 m n 0 w1 hm (by omega) e1
  rw [s2]
  have hc2 : b2.Cleared m n := by
    apply cleared_of_val
    intro r c hr hc
    rw [h2 r c hr hc, rowPar_of_form b1.box m n _ _ h1 r hr, colPar_of_form b1.box m n _ _ h1 c hc,
      natCast_even m em, natCast_even n en, sum_rowPar_eq_sum_colPar]
    simp only [zero_mul, zero_add, add_zero]
    exact CharTwo.add_self_eq_zero _
  exact ⟨b2, loop_done m 0 b2 (isLocked_of_cleared b2 m n w2 hc2), w2, hc2⟩

theorem loop_odd_odd (b : SecureBox) (m n : Nat) (k : ZMod 2) (hb : b.WF m n)
    (om : m % 2 = 1) (hon : n % 2 = 1)
    (hrow : ∀ r, r < m → rowPar b.box n r = k) (hcol : ∀ c, c < n → colPar b.box m c = k) :
    ∃ b1, openBoxLoop m 1 b = .done b1 ∧ b1.WF m n ∧ b1.Cleared m n := by
  rcases isLocked_cases b m n hb with ⟨e, hc⟩ | e
  · exact ⟨b, loop_done m 1 b e, hb, hc⟩
  obtain ⟨b1, s1, w1, h1⟩ := iteration_same_parity b m n 0 hb (by omega) (by omega) e
  rw [s1]
  have hc1 : b1.Cleared m n := by
    apply cleared_of_val
    intro r c hr hc
    rw [h1 r c hr hc, hrow r hr, hcol c hc]
    exact CharTwo.add_self_eq_zero _
  exact ⟨b1, loop_done m 0 b1 (isLocked_of_cleared b1 m n w1 hc1), w1, hc1⟩

theorem loop_odd_even (b : SecureBox) (m n : Nat) (k : ZMod 2) (hb : b.WF m n) (hn : 0 < n)
    (om : m % 2 = 1) (en : n % 2 = 0) (hcol : ∀ c, c < n → colPar b.box m c = k) :
    ∃ b1, openBoxLoop m 2 b = .done b1 ∧ b1.WF m n ∧ b1.Cleared m n := by
  rcases isLocked_cases b m n hb with ⟨e, hc⟩ | e
  · exact ⟨b, loop_done m 2 b e, hb, hc⟩
  obtain ⟨b1, s1, w1, h1⟩ := iteration_odd_even b m n 1 hb hn om en e
  rw [s1]
  rcases isLocked_cases b1 m n w1 with ⟨e1, hc1⟩ | e1
  · exact ⟨b1, loop_done m 1 b1 e1, w1, hc1⟩
  rcases h1 with hc1 | ⟨_, h1⟩
  · rw [isLocked_of_cleared b1 m n w1 hc1] at e1
    exact absurd e1 (by simp)
  have h1k : ∀ r c, r < m → c < n → val b1.box r c = rowPar b.box n r + k := by
    intro r c hr hc
    rw [h1 r c hr hc, hcol c hc]
  have htot : ∑ r in Finset.range m, rowPar b.box n r = 0 := by
    rw [sum_rowPar_eq_sum_colPar, Finset.sum_congr rfl (fun c hc => hcol c (Finset.mem_range.mp hc)),
      Finset.sum_const, Finset.card_range, nsmul_eq_mul, natCast_even n en, zero_mul]
  have hM : ∀ r c, r < m → c < n → rowPar b1.box n r + colPar b1.box m c = k := by
    intro r c hr hc
    rw [rowPar_of_form b1.box m n _ (fun _ => k) h1k r hr,
      colPar_of_form b1.box m n _ (fun _ => k) h1k c hc, htot, natCast_even n en,
      natCast_odd m om, Finset.sum_const, Finset.card_range, nsmul_eq_mul, natCast_even n en]
    simp
  obtain ⟨b2, s2, w2, h2⟩ := iteration_odd_even b1 m n 0 w1 hn om en e1
  rw [s2]
  have hc2 : b2.Cleared m n := by
    rcases h2 with hc2 | ⟨hnot, h2⟩
    · exact hc2
    · apply cleared_of_val
      intro r c hr hc
      rw [h2 r c hr hc, hM r c hr hc]
      rcases zmod2_cases k with hk | hk
      · exact hk
      · exact absurd (fun r c hr hc => by rw [hM r c hr hc, hk]) hnot
  exact ⟨b2, loop_done m 0 b2 (isLocked_of_cleared b2 m n w2 hc2), w2, hc2⟩

/-! ## States the constructor can produce -/

theorem cell_replicate (m n r c : Nat) (v : Bool) (hr : r < m) (hc : c < n) :
    cell (List.replicate m (List.replicate n v)) r c = v := by
  simp [cell, List.getD_eq_getElem?_getD, List.getElem?_replicate, hr, hc]

theorem wf_replicate (m n : Nat) (v : Bool) :
    WFGrid (List.replicate m (List.replicate n v)) m n := by
  refine ⟨by simp, ?_⟩
  intro row hrow
  rw [List.eq_of_mem_replicate hrow]
  simp

theorem fresh_wf (m n : Nat) : (SecureBox.fresh m n).WF m n :=
  ⟨rfl, rfl, wf_replicate m n false⟩

theorem fresh_val (m n r c : Nat) (hr : r < m) (hc : c < n) :
    val (SecureBox.fresh m n).box r c = 0 :=
  (val_eq_zero_iff _ _ _).mpr (cell_replicate m n r c false hr hc)

theorem toggle_colPar (b b1 : SecureBox) (m n y x : Nat) (hy : y < m) (om : m % 2 = 1)
    (h : ∀ r c, r < m → c < n → val b1.box r c = val b.box r c + tog y x r c)
    (c : Nat) (hc : c < n) : colPar b1.box m c = colPar b.box m c + 1 := by
  unfold colPar
  rw [Finset.sum_congr rfl (fun r hr => h r c (Finset.mem_range.mp hr) hc),
    Finset.sum_add_distrib, sum_tog_rows m y x c hy, natCast_odd m om]
  simp

theorem toggle_rowPar (b b1 : SecureBox) (m n y x : Nat) (hx : x < n) (hon : n % 2 = 1)
    (h : ∀ r c, r < m → c < n → val b1.box r c = val b.box r c + tog y x r c)
    (r : Nat) (hr : r < m) : rowPar b1.box n r = rowPar b.box n r + 1 := by
  unfold rowPar
  rw [Finset.sum_congr rfl (fun c hc => h r c hr (Finset.mem_range.mp hc)),
    Finset.sum_add_distrib, sum_tog_cols n y x r hx, natCast_odd n hon]
  simp

/-- Every `toggle` flips the parity of every column when the number of rows
is odd, and the parity of every row when the number of columns is odd. -/
theorem applyToggles_parity (ps : List (Nat × Nat)) (m n : Nat)
    (hps : ∀ p ∈ ps, p.1 < m ∧ p.2 < n) (b : SecureBox) (hb : b.WF m n) :
    ∃ b1, applyToggles b ps = .ok b1 ∧ b1.WF m n ∧
      (m % 2 = 1 → ∀ c, c < n → colPar b1.box m c = colPar b.box m c + (ps.length : ZMod 2)) ∧
      (n % 2 = 1 → ∀ r, r < m → rowPar b1.box n r = rowPar b.box n r + (ps.length : ZMod 2)) := by
  induction ps generalizing b with
  | nil => exact ⟨b, rfl, hb, by simp, by simp⟩
  | cons p ps ih =>
    obtain ⟨y, x⟩ := p
    have hp := hps (y, x) (List.mem_cons_self _ _)
    obtain ⟨b1, e1, w1, _, h1⟩ := toggle_val b m n y x hb hp.1 hp.2
    obtain ⟨b2, e2, w2, hc2, hr2⟩ := ih (fun q hq => hps q (List.mem_cons_of_mem _ hq)) b1 w1
    refine ⟨b2, by simp [applyToggles, e1, e2], w2, ?_, ?_⟩
    · intro om c hc
      rw [hc2 om c hc, toggle_colPar b b1 m n y x hp.1 om h1 c hc]
      simp only [List.length_cons, Nat.cast_add, Nat.cast_one]
      ring
    · intro hon r hr
      rw [hr2 hon r hr, toggle_rowPar b b1 m n y x hp.2 hon h1 r hr]
      simp only [List.length_cons, Nat.cast_add, Nat.cast_one]
      ring

theorem reachable_wf (m n : Nat) (b : SecureBox) (h : Reachable m n b) : b.WF m n := by
  obtain ⟨ps, hps, e⟩ := h
  obtain ⟨b1, e1, w1, _⟩ := applyToggles_parity ps m n hps _ (fresh_wf m n)
  rw [e] at e1
  cases e1
  exact w1

theorem reachable_parity (m n : Nat) (b : SecureBox) (h : Reachable m n b) :
    ∃ k : ZMod 2, (m % 2 = 1 → ∀ c, c < n → colPar b.box m c = k) ∧
      (n % 2 = 1 → ∀ r, r < m → rowPar b.box n r = k) := by
  obtain ⟨ps, hps, e⟩ := h
  obtain ⟨b1, e1, _, hc, hr⟩ := applyToggles_parity ps m n hps _ (fresh_wf m n)
  rw [e] at e1
  cases e1
  refine ⟨(ps.length : ZMod 2), ?_, ?_⟩
  · intro om c hc2
    rw [hc om c hc2]
    unfold colPar
    rw [Finset.sum_congr rfl (fun r hr => fresh_val m n r c (Finset.mem_range.mp hr) hc2)]
    simp
  · intro hon r hr2
    rw [hr hon r hr2]
    unfold rowPar
    rw [Finset.sum_congr rfl (fun c hc => fresh_val m n r c hr2 (Finset.mem_range.mp hc))]
    simp

theorem shuffle_eq_applyToggles (draws : List (Nat × Nat)) (m n : Nat) (hm : 0 < m) (hn : 0 < n)
    (b : SecureBox) (hb : b.WF m n) :
    b.shuffle draws = applyToggles b (draws.map (fun d => (d.1 % m, d.2 % n))) := by
  induction draws generalizing b with
  | nil => rfl
  | cons d ds ih =>
    obtain ⟨r1, r2⟩ := d
    obtain ⟨b1, e1, w1, _⟩ := toggle_val b m n (r1 % m) (r2 % n) hb (Nat.mod_lt _ hm)
      (Nat.mod_lt _ hn)
    have hy : b.ySize = m := hb.1
    have hx : b.xSize = n := hb.2.1
    have hne : ¬ (m = 0 ∨ n = 0) := by omega
    simp only [SecureBox.shuffle, hy, hx, hne, if_false, e1, List.map_cons, applyToggles]
    exact ih b1 w1

/-- For sides `m, n ≥ 1` the constructor succeeds, whatever the generator
draws, and the state it leaves is reachable by in-bounds toggles. -/
theorem new_reachable (m n : Nat) (hm : 0 < m) (hn : 0 < n) (draws : List (Nat × Nat)) :
    ∃ b, SecureBox.new m n draws = .ok b ∧ Reachable m n b := by
  have hps : ∀ p ∈ draws.map (fun d => (d.1 % m, d.2 % n)), p.1 < m ∧ p.2 < n := by
    intro p hp
    obtain ⟨d, _, rfl⟩ := List.mem_map.mp hp
    exact ⟨Nat.mod_lt _ hm, Nat.mod_lt _ hn⟩
  obtain ⟨b1, e1, _⟩ := applyToggles_parity _ m n hps _ (fresh_wf m n)
  refine ⟨b1, ?_, _, hps, e1⟩
  unfold SecureBox.new
  rw [← e1]
  exact shuffle_eq_applyToggles draws m n hm hn (SecureBox.fresh m n) (fresh_wf m n)

/-! ## The ghost history `calls` never influences the box -/

theorem toggle_same (b c : SecureBox) (y x : Nat) (h : SameBox b c) :
    SameResult (b.toggle y x) (c.toggle y x) := by
  obtain ⟨g, ys, xs, l⟩ := b
  obtain ⟨g1, ys1, xs1, l1⟩ := c
  obtain ⟨h1, h2, h3⟩ := h
  simp only at h1 h2 h3
  subst h1 h2 h3
  unfold SecureBox.toggle
  simp only
  cases flipCell g y x with
  | error f => simp [SameResult]
  | ok g0 =>
    simp only
    cases forRange xs (fun i g => flipCell g y i) g0 with
    | error f => simp [SameResult]
    | ok g1 =>
      simp only
      cases forRange ys (fun i g => flipCell g i x) g1 with
      | error f => simp [SameResult]
      | ok g2 => simp [SameResult, SameBox]

theorem forRange_same (n : Nat) (body1 body2 : Nat → SecureBox → Except Fault SecureBox)
    (hbody : ∀ k b c, SameBox b c → SameResult (body1 k b) (body2 k c))
    (b c : SecureBox) (h : SameBox b c) :
    SameResult (forRange n body1 b) (forRange n body2 c) := by
  induction n with
  | zero => exact h
  | succ k ih =>
    unfold forRange
    cases h1 : forRange k body1 b with
    | error f =>
      cases h2 : forRange k body2 c with
      | error f2 =>
        rw [h1, h2] at ih
        exact ih
      | ok c1 =>
        rw [h1, h2] at ih
        exact absurd ih (by simp [SameResult])
    | ok b1 =>
      cases h2 : forRange k body2 c with
      | error f2 =>
        rw [h1, h2] at ih
        exact absurd ih (by simp [SameResult])
      | ok c1 =>
        rw [h1, h2] at ih
        exact hbody k b1 c1 ih

theorem isLocked_same (b c : SecureBox) (h : SameBox b c) : b.isLocked = c.isLocked := by
  obtain ⟨h1, h2, h3⟩ := h
  unfold SecureBox.isLocked
  rw [h1, h2, h3]

theorem sameResult_ok (a : Except Fault SecureBox) (c1 : SecureBox)
    (h : SameResult a (.ok c1)) : ∃ b1, a = .ok b1 ∧ SameBox b1 c1 := by
  cases a with
  | error f => exact absurd h (by simp [SameResult])
  | ok b1 => exact ⟨b1, rfl, h⟩

theorem mask_same (s : Grid) (b c : SecureBox) (h : SameBox b c) :
    SameResult
      (forRange s.length (fun row bx =>
        forRange (s.getD row []).length (fun colum bx =>
          if (s.getD row []).getD colum false then bx.toggle row colum else .ok bx) bx) b)
      (forRange s.length (fun row bx =>
        forRange (s.getD row []).length (fun colum bx =>
          if (s.getD row []).getD colum false then bx.toggle row colum else .ok bx) bx) c) := by
  apply forRange_same _ _ _ _ b c h
  intro row b1 c1 h1
  apply forRange_same _ _ _ _ b1 c1 h1
  intro colum b2 c2 h2
  by_cases hv : (s.getD row []).getD colum false = true
  · simp only [hv, if_true]
    exact toggle_same b2 c2 row colum h2
  · simp only [hv, if_false]
    exact h2

theorem toggleByRowOrColum_same (y : Nat) (s : Grid) (b c : SecureBox) (h : SameBox b c) :
    SameResult (toggleByRowOrColum y b s) (toggleByRowOrColum y c s) := by
  unfold toggleByRowOrColum
  by_cases hy : y % 2 ≠ 0
  · rw [if_pos hy, if_pos hy]
    exact forRange_same _ _ _ (fun k b1 c1 h1 => toggle_same b1 c1 k 0 h1) b c h
  · rw [if_neg hy, if_neg hy]
    exact forRange_same _ _ _ (fun k b1 c1 h1 => toggle_same b1 c1 0 k h1) b c h

theorem openBoxBody_same (y : Nat) (b c : SecureBox) (h : SameBox b c) :
    SameResult (openBoxBody y b) (openBoxBody y c) := by
  have hm := mask_same b.getState b c h
  have hs : c.getState = b.getState := h.1.symm
  unfold openBoxBody toggleBoxByMask
  rw [hs]
  generalize forRange b.getState.length (fun row bx =>
        forRange (b.getState.getD row []).length (fun colum bx =>
          if (b.getState.getD row []).getD colum false then bx.toggle row colum else .ok bx) bx) b
    = A at hm ⊢
  generalize forRange b.getState.length (fun row bx =>
        forRange (b.getState.getD row []).length (fun colum bx =>
          if (b.getState.getD row []).getD colum false then bx.toggle row colum else .ok bx) bx) c
    = C at hm ⊢
  cases A with
  | error f =>
    cases C with
    | error g =>
      have hfg : f = g := hm
      simp [SameResult, hfg]
    | ok c1 => exact absurd hm (by simp [SameResult])
  | ok b1 =>
    cases C with
    | error g => exact absurd hm (by simp [SameResult])
    | ok c1 =>
      have hbc : SameBox b1 c1 := hm
      have hst : c1.getState = b1.getState := hbc.1.symm
      simp only [hst]
      cases isAllEqualOne b1.getState with
      | error f => simp [SameResult]
      | ok v =>
        cases v with
        | false => exact hbc
        | true => exact toggleByRowOrColum_same y b1.getState b1 c1 hbc

theorem body_of_same (y : Nat) (b c c1 : SecureBox) (h : SameBox b c)
    (hc : openBoxBody y c = .ok c1) : ∃ b1, openBoxBody y b = .ok b1 ∧ SameBox b1 c1 := by
  have := openBoxBody_same y b c h
  rw [hc] at this
  exact sameResult_ok _ c1 this

/-! ## Runs of the loop that never exit -/

theorem sameBox_trans (a b c : SecureBox) (h1 : SameBox a b) (h2 : SameBox b c) :
    SameBox a c :=
  ⟨h1.1.trans h2.1, h1.2.1.trans h2.2.1, h1.2.2.trans h2.2.2⟩

/-- A finite set of locked states that the loop body maps into itself keeps
the loop of `openBox` running for ever. -/
theorem loop_running_of_cycle (y : Nat) (cs : List SecureBox)
    (hcs : ∀ c ∈ cs, staysIn y cs c = true) :
    ∀ fuel b c, c ∈ cs → SameBox b c → openBoxLoop y fuel b = .running := by
  have hlock : ∀ b c, c ∈ cs → SameBox b c → b.isLocked = .ok true := by
    intro b c hc hbc
    have h := hcs c hc
    rw [isLocked_same b c hbc]
    unfold staysIn at h
    cases hl : c.isLocked with
    | error f => simp [hl] at h
    | ok v =>
      cases v with
      | true => rfl
      | false => simp [hl] at h
  have hbody : ∀ b c, c ∈ cs → SameBox b c →
      ∃ b1 c2, openBoxBody y b = .ok b1 ∧ c2 ∈ cs ∧ SameBox b1 c2 := by
    intro b c hc hbc
    have h := hcs c hc
    unfold staysIn at h
    cases hl : c.isLocked with
    | error f => simp [hl] at h
    | ok v =>
      cases v with
      | false => simp [hl] at h
      | true =>
        cases hb : openBoxBody y c with
        | error f => simp [hl, hb] at h
        | ok c1 =>
          simp only [hl, hb, List.any_eq_true, decide_eq_true_eq] at h
          obtain ⟨c2, hc2, h12⟩ := h
          obtain ⟨b1, e1, hb1⟩ := body_of_same y b c c1 hbc hb
          exact ⟨b1, c2, e1, hc2, sameBox_trans b1 c1 c2 hb1 h12⟩
  intro fuel
  induction fuel with
  | zero =>
    intro b c hc hbc
    simp [openBoxLoop, hlock b c hc hbc]
  | succ k ih =>
    intro b c hc hbc
    obtain ⟨b1, c2, e1, hc2, h12⟩ := hbody b c hc hbc
    rw [loop_step y k b b1 (hlock b c hc hbc) e1]
    exact ih b1 c2 hc2 h12

theorem running_two_by_three (fuel : Nat) (b : SecureBox)
    (h : SameBox b ⟨[[true, true, true], [true, false, false]], 2, 3, []⟩) :
    openBoxLoop 2 fuel b = .running :=
  loop_running_of_cycle 2
    [⟨[[true, true, true], [true, false, false]], 2, 3, []⟩,
     ⟨[[true, false, false], [true, false, false]], 2, 3, []⟩,
     ⟨[[true, true, true], [false, false, true]], 2, 3, []⟩,
     ⟨[[false, false, true], [false, false, true]], 2, 3, []⟩]
    (by decide) fuel b _ (List.mem_cons_self _ _) h

theorem running_one_by_two (fuel : Nat) (b : SecureBox)
    (h : SameBox b ⟨[[true, false]], 1, 2, []⟩) :
    openBoxLoop 1 fuel b = .running :=
  loop_running_of_cycle 1 [⟨[[true, false]], 1, 2, []⟩, ⟨[[false, true]], 1, 2, []⟩]
    (by decide) fuel b _ (List.mem_cons_self _ _) h

theorem running_three_by_two (fuel : Nat) (b : SecureBox)
    (h : SameBox b ⟨[[true, false], [false, false], [false, false]], 3, 2, []⟩) :
    openBoxLoop 3 fuel b = .running :=
  loop_running_of_cycle 3
    [⟨[[true, false], [false, false], [false, false]], 3, 2, []⟩,
     ⟨[[false, true], [true, false], [true, false]], 3, 2, []⟩,
     ⟨[[true, false], [true, false], [true, false]], 3, 2, []⟩,
     ⟨[[false, true], [false, true], [false, true]], 3, 2, []⟩]
    (by decide) fuel b _ (List.mem_cons_self _ _) h

/-! ## `toggleBoxByMask` as a list of toggles -/

theorem applyToggles_append (ps qs : List (Nat × Nat)) (b : SecureBox) :
    applyToggles b (ps ++ qs) =
      match applyToggles b ps with
      | .ok b1 => applyToggles b1 qs
      | .error f => .error f := by
  induction ps generalizing b with
  | nil => rfl
  | cons p ps ih =>
    obtain ⟨y, x⟩ := p
    simp only [List.cons_append, applyToggles]
    cases b.toggle y x with
    | error f => rfl
    | ok b1 => exact ih b1

theorem applyToggles_singleton (b : SecureBox) (y x : Nat) :
    applyToggles b [(y, x)] = b.toggle y x := by
  simp only [applyToggles]
  cases b.toggle y x <;> rfl

theorem mask_row_eq (s : Grid) (k l : Nat) (b : SecureBox) :
    forRange l (fun colum bx =>
        if (s.getD k []).getD colum false then bx.toggle k colum else .ok bx) b
      = applyToggles b
          (((List.range l).filter (fun c => cell s k c)).map (fun c => (k, c))) := by
  induction l with
  | zero => rfl
  | succ j ih =>
    rw [forRange, ih, List.range_succ, List.filter_append, List.map_append, applyToggles_append]
    cases applyToggles b (((List.range j).filter (fun c => cell s k c)).map (fun c => (k, c))) with
    | error f => rfl
    | ok b1 =>
      have hcell : (s.getD k []).getD j false = cell s k j := rfl
      simp only [hcell]
      cases hv : cell s k j with
      | true => simp [hv, applyToggles_singleton]
      | false => simp [hv, applyToggles]

theorem mask_rows_eq (s : Grid) (k : Nat) (b : SecureBox) :
    forRange k (fun row bx =>
        forRange (s.getD row []).length (fun colum bx =>
          if (s.getD row []).getD colum false then bx.toggle row colum else .ok bx) bx) b
      = applyToggles b ((List.range k).flatMap (rowPositions s)) := by
  induction k with
  | zero => rfl
  | succ j ih =>
    rw [forRange, ih, List.range_succ, List.flatMap_append, List.flatMap_singleton,
      applyToggles_append]
    cases applyToggles b ((List.range j).flatMap (rowPositions s)) with
    | error f => rfl
    | ok b1 => exact mask_row_eq s j _ b1

/-- The function `toggleBoxByMask(state, box)` calls `toggle` for the positions
that are `true` in `state`, in row-major order, and returns the state of the
box after these calls. -/
theorem toggleBoxByMask_eq (s : Grid) (b : SecureBox) :
    toggleBoxByMask s b =
      match applyToggles b (maskPositions s) with
      | .ok b1 => .ok (b1.getState, b1)
      | .error f => .error f := by
  unfold toggleBoxByMask maskPositions
  rw [mask_rows_eq]
  cases applyToggles b ((List.range s.length).flatMap (rowPositions s)) <;> rfl

theorem maskPositions_in_bounds (s : Grid) (m n : Nat) (hs : WFGrid s m n) :
    ∀ p ∈ maskPositions s, p.1 < m ∧ p.2 < n := by
  intro p hp
  unfold maskPositions at hp
  obtain ⟨r, hr, hp2⟩ := List.mem_flatMap.mp hp
  unfold rowPositions at hp2
  obtain ⟨c, hc, rfl⟩ := List.mem_map.mp hp2
  have hr2 : r < m := by
    rw [← hs.1]
    exact List.mem_range.mp hr
  have hc2 := (List.mem_filter.mp hc).1
  rw [getD_length s m n r hs hr2] at hc2
  exact ⟨hr2, List.mem_range.mp hc2⟩

theorem val_allTrue (m n r c : Nat) (hr : r < m) (hc : c < n) : val (allTrue m n) r c = 1 :=
  (val_eq_one_iff _ _ _).mpr (cell_replicate m n r c true hr hc)

theorem rowPar_allTrue (m n r : Nat) (hr : r < m) : rowPar (allTrue m n) n r = (n : ZMod 2) := by
  unfold rowPar
  rw [Finset.sum_congr rfl (fun c hc => val_allTrue m n r c hr (Finset.mem_range.mp hc))]
  simp

theorem colPar_allTrue (m n c : Nat) (hc : c < n) : colPar (allTrue m n) m c = (m : ZMod 2) := by
  unfold colPar
  rw [Finset.sum_congr rfl (fun r hr => val_allTrue m n r c (Finset.mem_range.mp hr) hc)]
  simp

/-- Toggling every position of a grid whose sides have the same parity flips
every cell. -/
theorem toggle_all_same_parity (b : SecureBox) (m n : Nat) (hb : b.WF m n)
    (hp : m % 2 = n % 2) :
    ∃ b1, applyToggles b (maskPositions (allTrue m n)) = .ok b1 ∧ b1.WF m n ∧
      ∀ r c, r < m → c < n → val b1.box r c = val b.box r c + 1 := by
  obtain ⟨b1, e, w, _, h⟩ := toggleBoxByMask_spec (allTrue m n) b m n (wf_replicate m n true) hb
  rw [toggleBoxByMask_eq] at e
  refine ⟨b1, ?_, w, ?_⟩
  · cases ha : applyToggles b (maskPositions (allTrue m n)) with
    | error f => simp [ha] at e
    | ok b2 =>
      simp only [ha, Except.ok.injEq, Prod.mk.injEq] at e
      rw [e.2]
  · intro r c hr hc
    rw [h r c hr hc, rowPar_allTrue m n r hr, colPar_allTrue m n c hc,
      val_allTrue m n r c hr hc]
    have hmn : (m : ZMod 2) = (n : ZMod 2) := by
      rw [← ZMod.natCast_mod m 2, ← ZMod.natCast_mod n 2, hp]
    rw [hmn, CharTwo.add_self_eq_zero, zero_add]

/-! ## The claims about `openBox` -/

theorem isLocked_iff (b : SecureBox) (v : Bool) (h : b.isLocked = .ok v) :
    v = true ↔ ∃ r c, r < b.ySize ∧ c < b.xSize ∧ cell b.box r c = true := by
  constructor
  · intro hv
    subst hv
    exact isLocked_true b h
  · rintro ⟨r, c, hr, hc, hcell⟩
    cases v with
    | true => rfl
    | false =>
      rw [isLocked_false b h r c hr hc] at hcell
      exact absurd hcell (by simp)

theorem loop_exit_unlocked (y fuel : Nat) (b b1 : SecureBox)
    (h : openBoxLoop y fuel b = .done b1) : b1.isLocked = .ok false := by
  induction fuel generalizing b with
  | zero =>
    cases hl : b.isLocked with
    | error f => simp [openBoxLoop, hl] at h
    | ok v =>
      cases v with
      | false =>
        simp only [openBoxLoop, hl, Outcome.done.injEq] at h
        rw [← h]
        exact hl
      | true => simp [openBoxLoop, hl] at h
  | succ k ih =>
    cases hl : b.isLocked with
    | error f => simp [openBoxLoop, hl] at h
    | ok v =>
      cases v with
      | false =>
        simp only [openBoxLoop, hl, Outcome.done.injEq] at h
        rw [← h]
        exact hl
      | true =>
        cases hb : openBoxBody y b with
        | error f => simp [openBoxLoop, hl, hb] at h
        | ok b2 =>
          rw [loop_step y k b b2 hl hb] at h
          exact ih b2 h

/-- C1 (the code at the failing input): on a `2 × 3` box whose shuffle is the
single toggle `(0, 0)`, the loop of `openBox` is still running after any
number of iterations, so `openBox(2, 3)` never returns. -/
theorem openBox_two_by_three_never_returns (fuel : Nat) :
    openBox 2 3 [(0, 0)] fuel = .running := by
  have hnew : SecureBox.new 2 3 [(0, 0)]
      = .ok ⟨[[true, true, true], [true, false, false]], 2, 3, [(0, 0)]⟩ := by decide
  have hrun := running_two_by_three fuel
    ⟨[[true, true, true], [true, false, false]], 2, 3, [(0, 0)]⟩ (by decide)
  simp only [openBox, hnew, hrun]

/-- C2 (counterexample): started on the well-formed `1 × 2` grid
`[[true, false]]`, the loop of `openBox` never exits. -/
theorem loop_one_by_two_never_exits :
    SecureBox.WF ⟨[[true, false]], 1, 2, []⟩ 1 2 ∧
    ¬ ∃ fuel b1, openBoxLoop 1 fuel ⟨[[true, false]], 1, 2, []⟩ = .done b1 := by
  refine ⟨by decide, ?_⟩
  rintro ⟨fuel, b1, h⟩
  rw [running_one_by_two fuel ⟨[[true, false]], 1, 2, []⟩ (by decide)] at h
  exact absurd h (by simp)

/-- C2 (amended): on a `m × n` box with `m, n ≥ 1`, the loop of `openBox` exits
after at most two iterations when `m` and `n` are both even (from every
well-formed state), and when `m` is odd and the initial state is reachable from
the all-`false` grid by in-bounds toggles. -/
theorem loop_exits_within_two (m n : Nat) (b : SecureBox) (hm : 0 < m) (hn : 0 < n)
    (h : (m % 2 = 0 ∧ n % 2 = 0 ∧ b.WF m n) ∨ (m % 2 = 1 ∧ Reachable m n b)) :
    ∃ b1, openBoxLoop m 2 b = .done b1 := by
  rcases h with ⟨em, en, hb⟩ | ⟨om, hr⟩
  · obtain ⟨b1, e, _⟩ := loop_even_even b m n hb hm em en
    exact ⟨b1, e⟩
  · have hb := reachable_wf m n b hr
    obtain ⟨k, hcol, hrow⟩ := reachable_parity m n b hr
    rcases Nat.mod_two_eq_zero_or_one n with en | hon
    · obtain ⟨b1, e, _⟩ := loop_odd_even b m n k hb hn om en (hcol om)
      exact ⟨b1, e⟩
    · obtain ⟨b1, e, _⟩ := loop_odd_odd b m n k hb om hon (hrow hon) (hcol om)
      exact ⟨b1, loop_mono m 1 b b1 e⟩

/-- C2 (witness): the `3 × 2` box after the single toggle `(0, 0)`. -/
theorem loop_exits_within_two_witness :
    (0 < 3 ∧ 0 < 2 ∧
      Reachable 3 2 ⟨[[true, true], [true, false], [true, false]], 3, 2, [(0, 0)]⟩) ∧
    ∃ b1, openBoxLoop 3 2 ⟨[[true, true], [true, false], [true, false]], 3, 2, [(0, 0)]⟩
      = .done b1 :=
  ⟨⟨by decide, by decide, [(0, 0)], by decide, by decide⟩,
    loop_exits_within_two 3 2 ⟨[[true, true], [true, false], [true, false]], 3, 2, [(0, 0)]⟩
      (by decide) (by decide) (Or.inr ⟨by decide, [(0, 0)], by decide, by decide⟩)⟩

/-- C3: whenever the loop of `openBox` exits, from any initial box and after
any number of iterations, every cell of the box it leaves is `false`, and
`isLocked`, whose value `openBox` returns, gives `false`; that value is `true`
exactly when some cell of the box is `true`; so `openBox` returns `false`
whenever it returns. -/
theorem openBox_sound (y fuel : Nat) (b b1 : SecureBox)
    (h : openBoxLoop y fuel b = .done b1) :
    (∀ r c, r < b1.ySize → c < b1.xSize → cell b1.box r c = false) ∧
    b1.isLocked = .ok false ∧
    (∀ v, b1.isLocked = .ok v →
      (v = true ↔ ∃ r c, r < b1.ySize ∧ c < b1.xSize ∧ cell b1.box r c = true)) ∧
    (∀ x draws, SecureBox.new y x draws = .ok b → openBox y x draws fuel = .done false) := by
  have hl := loop_exit_unlocked y fuel b b1 h
  refine ⟨isLocked_false b1 hl, hl, fun v hv => isLocked_iff b1 v hv, ?_⟩
  intro x draws hnew
  simp only [openBox, hnew, h, hl]

/-- C3 (witness): the `2 × 2` box with every cell `true`, one iteration. -/
theorem openBox_sound_witness :
    openBoxLoop 2 1 ⟨allTrue 2 2, 2, 2, []⟩
      = .done ⟨allFalse 2 2, 2, 2, [(0, 0), (0, 1), (1, 0), (1, 1)]⟩ ∧
    (∀ r c, r < 2 → c < 2 → cell (allFalse 2 2) r c = false) ∧
    SecureBox.isLocked ⟨allFalse 2 2, 2, 2, [(0, 0), (0, 1), (1, 0), (1, 1)]⟩ = .ok false ∧
    (∀ v, SecureBox.isLocked ⟨allFalse 2 2, 2, 2, [(0, 0), (0, 1), (1, 0), (1, 1)]⟩ = .ok v →
      (v = true ↔ ∃ r c, r < 2 ∧ c < 2 ∧ cell (allFalse 2 2) r c = true)) ∧
    (∀ x draws, SecureBox.new 2 x draws = .ok ⟨allTrue 2 2, 2, 2, []⟩ →
      openBox 2 x draws 1 = .done false) :=
  ⟨by decide, openBox_sound 2 1 ⟨allTrue 2 2, 2, 2, []⟩
    ⟨allFalse 2 2, 2, 2, [(0, 0), (0, 1), (1, 0), (1, 1)]⟩ (by decide)⟩

theorem colPar_of_cleared (b : SecureBox) (m n c : Nat) (hb : b.Cleared m n) (hc : c < n) :
    colPar b.box m c = 0 := by
  unfold colPar
  exact Finset.sum_eq_zero (fun r hr =>
    (val_eq_zero_iff _ _ _).mpr (hb r c (Finset.mem_range.mp hr) hc))

theorem box_eq_allTrue (b : SecureBox) (m n : Nat) (hb : b.WF m n)
    (h : ∀ r c, r < m → c < n → val b.box r c = 1) : b.box = allTrue m n := by
  apply grid_ext _ _ m n hb.2.2 (wf_replicate m n true)
  intro r c hr hc
  rw [← val_eq_iff, h r c hr hc]
  exact (val_allTrue m n r c hr hc).symm

theorem box_eq_allFalse (b : SecureBox) (m n : Nat) (hb : b.WF m n)
    (h : ∀ r c, r < m → c < n → val b.box r c = 0) : b.box = allFalse m n := by
  apply grid_ext _ _ m n hb.2.2 (wf_replicate m n false)
  intro r c hr hc
  rw [← val_eq_iff, h r c hr hc]
  exact ((val_eq_zero_iff _ _ _).mpr (cell_replicate m n r c false hr hc)).symm

/-- C7 (counterexample): on the `2 × 2` grid, the four toggles `(0, 0)`,
`(0, 1)`, `(1, 0)`, `(1, 1)` take the all-`false` grid to the all-`true` grid,
and the all-`true` grid to the all-`false` grid. -/
theorem all_true_two_by_two_reachable :
    (∃ b, applyToggles (SecureBox.fresh 2 2) [(0, 0), (0, 1), (1, 0), (1, 1)] = .ok b ∧
      b.box = allTrue 2 2) ∧
    (∃ b, applyToggles ⟨allTrue 2 2, 2, 2, []⟩ [(0, 0), (0, 1), (1, 0), (1, 1)] = .ok b ∧
      b.box = allFalse 2 2) :=
  ⟨⟨⟨allTrue 2 2, 2, 2, [(0, 0), (0, 1), (1, 0), (1, 1)]⟩, by decide, rfl⟩,
    ⟨⟨allFalse 2 2, 2, 2, [(0, 0), (0, 1), (1, 0), (1, 1)]⟩, by decide, rfl⟩⟩

/-- C7 (amended): when `m, n ≥ 1` have the same parity, the all-`true` grid is
reachable and solvable: toggling every position once, in row-major order (the
calls of `toggleBoxByMask` on the all-`true` grid), takes the all-`false` grid
to the all-`true` grid and the all-`true` grid to the all-`false` grid.  The
parity test only makes `isAllEqualOne` answer `false` on the all-`true` grid. -/
theorem all_true_reachable_same_parity (m n : Nat) (hm : 0 < m) (hp : m % 2 = n % 2) :
    (∀ p ∈ maskPositions (allTrue m n), p.1 < m ∧ p.2 < n) ∧
    (∃ b, applyToggles (SecureBox.fresh m n) (maskPositions (allTrue m n)) = .ok b ∧
      b.box = allTrue m n ∧ Reachable m n b) ∧
    (∃ b, applyToggles ⟨allTrue m n, m, n, []⟩ (maskPositions (allTrue m n)) = .ok b ∧
      b.box = allFalse m n) ∧
    isAllEqualOne (allTrue m n) = .ok false := by
  have hin := maskPositions_in_bounds (allTrue m n) m n (wf_replicate m n true)
  refine ⟨hin, ?_, ?_, ?_⟩
  · obtain ⟨b1, e, w, h⟩ := toggle_all_same_parity (SecureBox.fresh m n) m n (fresh_wf m n) hp
    refine ⟨b1, e, box_eq_allTrue b1 m n w ?_, _, hin, e⟩
    intro r c hr hc
    rw [h r c hr hc, fresh_val m n r c hr hc, zero_add]
  · have w0 : SecureBox.WF ⟨allTrue m n, m, n, []⟩ m n := ⟨rfl, rfl, wf_replicate m n true⟩
    obtain ⟨b1, e, w, h⟩ := toggle_all_same_parity ⟨allTrue m n, m, n, []⟩ m n w0 hp
    refine ⟨b1, e, box_eq_allFalse b1 m n w ?_⟩
    intro r c hr hc
    rw [h r c hr hc]
    show val (allTrue m n) r c + 1 = 0
    rw [val_allTrue m n r c hr hc]
    decide
  · obtain ⟨v, e, hv⟩ := isAllEqualOne_spec (allTrue m n) m n (wf_replicate m n true) hm
    cases v with
    | false => exact e
    | true => exact absurd hp (hv.mp rfl).1

/-- C7 (witness): the `3 × 3` grid. -/
theorem all_true_reachable_same_parity_witness :
    (0 < 3 ∧ 3 % 2 = 3 % 2) ∧
    (∀ p ∈ maskPositions (allTrue 3 3), p.1 < 3 ∧ p.2 < 3) ∧
    (∃ b, applyToggles (SecureBox.fresh 3 3) (maskPositions (allTrue 3 3)) = .ok b ∧
      b.box = allTrue 3 3 ∧ Reachable 3 3 b) ∧
    (∃ b, applyToggles ⟨allTrue 3 3, 3, 3, []⟩ (maskPositions (allTrue 3 3)) = .ok b ∧
      b.box = allFalse 3 3) ∧
    isAllEqualOne (allTrue 3 3) = .ok false :=
  ⟨⟨by decide, by decide⟩, all_true_reachable_same_parity 3 3 (by decide) (by decide)⟩

/-- C8 (the code at the failing input): on a `2 × 1` box whose shuffle is the
single toggle `(0, 0)`, the first iteration of the loop of `openBox` leaves the
grid all `true` after the mask pass and enters `toggleByRowOrColum`, whose
second call is `toggle(0, 1)`: the access `box[0][1]` is outside of the
one-column grid. -/
theorem openBox_two_by_one_out_of_range (fuel : Nat) :
    openBox 2 1 [(0, 0)] (fuel + 1) = .fault (.outOfRange 0 1) ∧
    toggleBoxByMask [[true], [true]] ⟨[[true], [true]], 2, 1, [(0, 0)]⟩
      = .ok ([[true], [true]], ⟨[[true], [true]], 2, 1, [(0, 0), (0, 0), (1, 0)]⟩) ∧
    isAllEqualOne [[true], [true]] = .ok true ∧
    SecureBox.toggle ⟨[[true], [true]], 2, 1, [(0, 0), (0, 0), (1, 0)]⟩ 0 0
      = .ok ⟨[[false], [false]], 2, 1, [(0, 0), (0, 0), (1, 0), (0, 0)]⟩ ∧
    SecureBox.toggle ⟨[[false], [false]], 2, 1, [(0, 0), (0, 0), (1, 0), (0, 0)]⟩ 0 1
      = .error (.outOfRange 0 1) := by
  have hnew : SecureBox.new 2 1 [(0, 0)] = .ok ⟨[[true], [true]], 2, 1, [(0, 0)]⟩ := by decide
  have hl : SecureBox.isLocked ⟨[[true], [true]], 2, 1, [(0, 0)]⟩ = .ok true := by decide
  have hb : openBoxBody 2 ⟨[[true], [true]], 2, 1, [(0, 0)]⟩ = .error (.outOfRange 0 1) := by
    decide
  refine ⟨?_, by decide, by decide, by decide, by decide⟩
  simp only [openBox, hnew, openBoxLoop, hl, hb]

/-- C9 (counterexample): started on the `3 × 2` grid
`[[true, false], [false, false], [false, false]]`, the loop of `openBox` never
exits. -/
theorem loop_three_by_two_never_exits :
    ¬ ∃ fuel b1, openBoxLoop 3 fuel
      ⟨[[true, false], [false, false], [false, false]], 3, 2, []⟩ = .done b1 := by
  rintro ⟨fuel, b1, h⟩
  rw [running_three_by_two fuel
    ⟨[[true, false], [false, false], [false, false]], 3, 2, []⟩ (by decide)] at h
  exact absurd h (by simp)

/-- C9 (amended): no sequence of in-bounds toggles clears the `3 × 2` grid
`[[true, false], [false, false], [false, false]]`, the grid is not a state
reachable from the all-`false` grid, and the loop of `openBox` started on it
is still running after any number of iterations. -/
theorem three_by_two_unsolvable :
    (¬ ∃ ps b1, (∀ p ∈ ps, p.1 < 3 ∧ p.2 < 2) ∧
      applyToggles ⟨[[true, false], [false, false], [false, false]], 3, 2, []⟩ ps = .ok b1 ∧
      b1.Cleared 3 2) ∧
    (¬ ∃ b, Reachable 3 2 b ∧ b.box = [[true, false], [false, false], [false, false]]) ∧
    (∀ fuel, openBoxLoop 3 fuel
      ⟨[[true, false], [false, false], [false, false]], 3, 2, []⟩ = .running) := by
  have c0 : colPar [[true, false], [false, false], [false, false]] 3 0 = 1 := by decide
  have c1 : colPar [[true, false], [false, false], [false, false]] 3 1 = 0 := by decide
  refine ⟨?_, ?_, ?_⟩
  · rintro ⟨ps, b1, hps, e, hc⟩
    obtain ⟨b2, e2, _, hcol, _⟩ := applyToggles_parity ps 3 2 hps
      ⟨[[true, false], [false, false], [false, false]], 3, 2, []⟩ (by decide)
    rw [e] at e2
    cases e2
    have h0 := hcol (by decide) 0 (by decide)
    have h1 := hcol (by decide) 1 (by decide)
    rw [colPar_of_cleared b1 3 2 0 hc (by decide)] at h0
    rw [colPar_of_cleared b1 3 2 1 hc (by decide)] at h1
    simp only [c0] at h0
    simp only [c1, zero_add] at h1
    rw [← h1] at h0
    exact absurd h0 (by decide)
  · rintro ⟨b, hr, hbox⟩
    obtain ⟨k, hcol, _⟩ := reachable_parity 3 2 b hr
    have h0 := hcol (by decide) 0 (by decide)
    have h1 := hcol (by decide) 1 (by decide)
    rw [hbox] at h0 h1
    rw [c0] at h0
    rw [c1] at h1
    rw [← h1] at h0
    exact absurd h0 (by decide)
  · intro fuel
    exact running_three_by_two fuel _ (by decide)

/-- C10: on a box whose grid is all `false`, the loop of `openBox` exits before
its first iteration, whatever the number of iterations it is allowed: it
leaves the very same box (same grid, no `toggle` call added to the history),
and `openBox`, when the shuffle toggles nothing, returns `false`. -/
theorem openBox_all_false (m n fuel : Nat) (b : SecureBox) (hb : b.WF m n)
    (h0 : b.box = allFalse m n) :
    openBoxLoop m fuel b = .done b ∧ openBoxLoop m 0 b = .done b ∧
    (∀ b1, openBoxLoop m fuel b = .done b1 → b1.box = allFalse m n ∧ b1.calls = b.calls) ∧
    openBox m n [] fuel = .done false := by
  have hc : b.Cleared m n := by
    intro r c hr hc
    rw [h0]
    exact cell_replicate m n r c false hr hc
  have hl := isLocked_of_cleared b m n hb hc
  have hf : (SecureBox.fresh m n).isLocked = .ok false :=
    isLocked_of_cleared _ m n (fresh_wf m n) (fun r c hr hc => cell_replicate m n r c false hr hc)
  refine ⟨loop_done m fuel b hl, loop_done m 0 b hl, ?_, ?_⟩
  · intro b1 e
    rw [loop_done m fuel b hl] at e
    cases e
    exact ⟨h0, rfl⟩
  · have hnew : SecureBox.new m n [] = .ok (SecureBox.fresh m n) := rfl
    simp only [openBox, hnew, loop_done m fuel _ hf, hf]

/-- C10 (witness): the `2 × 3` grid with every cell `false`. -/
theorem openBox_all_false_witness :
    (SecureBox.WF ⟨allFalse 2 3, 2, 3, []⟩ 2 3 ∧ allFalse 2 3 = allFalse 2 3) ∧
    openBoxLoop 2 5 ⟨allFalse 2 3, 2, 3, []⟩ = .done ⟨allFalse 2 3, 2, 3, []⟩ ∧
    openBoxLoop 2 0 ⟨allFalse 2 3, 2, 3, []⟩ = .done ⟨allFalse 2 3, 2, 3, []⟩ ∧
    (∀ b1, openBoxLoop 2 5 ⟨allFalse 2 3, 2, 3, []⟩ = .done b1 →
      b1.box = allFalse 2 3 ∧ b1.calls = []) ∧
    openBox 2 3 [] 5 = .done false :=
  ⟨⟨by decide, rfl⟩, openBox_all_false 2 3 5 ⟨allFalse 2 3, 2, 3, []⟩ (by decide) rfl⟩

/-! ## The remaining claims: `isLocked`, the mask pass, the parities of the sides -/

theorem cleared_iff_allFalse (b : SecureBox) (m n : Nat) (hb : b.WF m n) :
    b.Cleared m n ↔ b.box = allFalse m n := by
  constructor
  · intro hc
    exact box_eq_allFalse b m n hb (fun r c hr hc2 => (val_eq_zero_iff _ _ _).mpr (hc r c hr hc2))
  · intro h r c hr hc
    rw [h]
    exact cell_replicate m n r c false hr hc

/-- C11: on a well-formed `m × n` box, `isLocked` returns `true` if and only if
at least one cell of the grid is `true`, and `false` exactly on the all-`false`
grid.  It only reads the box: it returns a Boolean and no new box. -/
theorem isLocked_iff_some_cell_true (b : SecureBox) (m n : Nat) (hb : b.WF m n) :
    ∃ v, b.isLocked = .ok v ∧
      (v = true ↔ ∃ r c, r < m ∧ c < n ∧ cell b.box r c = true) ∧
      (v = false ↔ b.box = allFalse m n) := by
  obtain ⟨v, e, hv⟩ := isLocked_spec b m n hb
  refine ⟨v, e, hv, ?_⟩
  rw [← cleared_iff_allFalse b m n hb]
  constructor
  · intro hf r c hr hc
    cases hcell : cell b.box r c with
    | false => rfl
    | true =>
      have := hv.mpr ⟨r, c, hr, hc, hcell⟩
      rw [hf] at this
      exact absurd this (by simp)
  · intro hc
    cases v with
    | false => rfl
    | true =>
      obtain ⟨r, c, hr, hc2, h⟩ := hv.mp rfl
      rw [hc r c hr hc2] at h
      exact absurd h (by simp)

/-- C11 (witness): a `2 × 3` box with one `true` cell. -/
theorem isLocked_iff_some_cell_true_witness :
    SecureBox.WF ⟨[[false, false, false], [false, true, false]], 2, 3, []⟩ 2 3 ∧
    ∃ v, SecureBox.isLocked ⟨[[false, false, false], [false, true, false]], 2, 3, []⟩ = .ok v ∧
      (v = true ↔ ∃ r c, r < 2 ∧ c < 3 ∧
        cell [[false, false, false], [false, true, false]] r c = true) ∧
      (v = false ↔ [[false, false, false], [false, true, false]] = allFalse 2 3) :=
  ⟨by decide, isLocked_iff_some_cell_true
    ⟨[[false, false, false], [false, true, false]], 2, 3, []⟩ 2 3 (by decide)⟩

theorem rowPar_eq_count (g : Grid) (n r : Nat) : rowPar g n r = (rowCount g n r : ZMod 2) := by
  unfold rowPar rowCount
  induction n with
  | zero => simp
  | succ k ih =>
    rw [Finset.sum_range_succ, ih, List.range_succ, List.filter_append, List.length_append]
    unfold val
    cases hk : cell g r k <;> simp [List.filter_cons, hk]

theorem colPar_eq_count (g : Grid) (m c : Nat) : colPar g m c = (colCount g m c : ZMod 2) := by
  unfold colPar colCount
  induction m with
  | zero => simp
  | succ k ih =>
    rw [Finset.sum_range_succ, ih, List.range_succ, List.filter_append, List.length_append]
    unfold val
    cases hk : cell g k c <;> simp [List.filter_cons, hk]

theorem natCast_zmod2 (p : Nat) : (p : ZMod 2) = if p % 2 = 1 then 1 else 0 := by
  rcases Nat.mod_two_eq_zero_or_one p with h | h
  · rw [natCast_even p h]
    simp [h]
  · rw [natCast_odd p h]
    simp [h]

/-- C13: one pass of `toggleBoxByMask` on the box's own state `b` returns, and
stores in the box, the grid whose cell `(r, c)` is the parity of the number of
`true` cells in row `r` of `b`, XOR the parity of the number of `true` cells in
column `c` of `b`. -/
theorem mask_pass_closed_form (b : SecureBox) (m n : Nat) (hb : b.WF m n) :
    ∃ b1, toggleBoxByMask b.getState b = .ok (b1.box, b1) ∧ b1.WF m n ∧
      ∀ r c, r < m → c < n →
        cell b1.box r c
          = xor (decide (rowCount b.box n r % 2 = 1)) (decide (colCount b.box m c % 2 = 1)) := by
  obtain ⟨b1, e, w, _, h⟩ := mask_pass b m n hb
  refine ⟨b1, e, w, ?_⟩
  intro r c hr hc
  have hv := h r c hr hc
  rw [rowPar_eq_count, colPar_eq_count, natCast_zmod2, natCast_zmod2] at hv
  unfold val at hv
  by_cases h1 : rowCount b.box n r % 2 = 1 <;> by_cases h2 : colCount b.box m c % 2 = 1 <;>
    cases hcell : cell b1.box r c <;> simp [h1, h2, hcell] at hv ⊢

/-- C13 (witness): a `2 × 3` box. -/
theorem mask_pass_closed_form_witness :
    SecureBox.WF ⟨[[true, false, true], [false, true, true]], 2, 3, []⟩ 2 3 ∧
    ∃ b1, toggleBoxByMask [[true, false, true], [false, true, true]]
        ⟨[[true, false, true], [false, true, true]], 2, 3, []⟩ = .ok (b1.box, b1) ∧
      b1.WF 2 3 ∧
      ∀ r c, r < 2 → c < 3 →
        cell b1.box r c
          = xor (decide (rowCount [[true, false, true], [false, true, true]] 3 r % 2 = 1))
              (decide (colCount [[true, false, true], [false, true, true]] 2 c % 2 = 1)) :=
  ⟨by decide, mask_pass_closed_form
    ⟨[[true, false, true], [false, true, true]], 2, 3, []⟩ 2 3 (by decide)⟩

theorem second_pass_even_even (g g1 g2 : Grid) (m n : Nat) (em : m % 2 = 0) (en : n % 2 = 0)
    (h1 : ∀ r c, r < m → c < n → val g1 r c = rowPar g n r + colPar g m c)
    (h2 : ∀ r c, r < m → c < n → val g2 r c = rowPar g1 n r + colPar g1 m c)
    (r c : Nat) (hr : r < m) (hc : c < n) : val g2 r c = 0 := by
  rw [h2 r c hr hc, rowPar_of_form g1 m n _ _ h1 r hr, colPar_of_form g1 m n _ _ h1 c hc,
    natCast_even m em, natCast_even n en, sum_rowPar_eq_sum_colPar]
  simp only [zero_mul, zero_add, add_zero]
  exact CharTwo.add_self_eq_zero _

/-- C12: on a box with an odd number of rows and of columns, in a state
reachable from the all-`false` grid by in-bounds toggles, one pass of
`toggleBoxByMask` (whose calls are the positions that are `true` in the
snapshot) returns and leaves the all-`false` grid, and the loop of `openBox`
exits within one iteration; on the `1 × 1` grid `[[true]]` the pass calls
`toggle(0, 0)` and nothing else, and leaves `[[false]]`. -/
theorem mask_pass_clears_odd_odd (m n : Nat) (b : SecureBox) (om : m % 2 = 1)
    (hon : n % 2 = 1) (hr : Reachable m n b) :
    (∃ b1, toggleBoxByMask b.getState b = .ok (allFalse m n, b1) ∧ b1.box = allFalse m n ∧
      b1.calls = b.calls ++ maskPositions b.box) ∧
    (∃ b2, openBoxLoop m 1 b = .done b2 ∧ b2.box = allFalse m n) ∧
    (∀ c : SecureBox, c.WF 1 1 → c.box = [[true]] →
      ∃ c1, toggleBoxByMask c.getState c = .ok ([[false]], c1) ∧ c1.box = [[false]] ∧
        c1.calls = c.calls ++ [(0, 0)]) := by
  have hb := reachable_wf m n b hr
  obtain ⟨k, hcol, hrow⟩ := reachable_parity m n b hr
  refine ⟨?_, ?_, ?_⟩
  · obtain ⟨b1, e, w, hcalls, h⟩ := mask_pass b m n hb
    have hbox : b1.box = allFalse m n := by
      apply box_eq_allFalse b1 m n w
      intro r c hr2 hc2
      rw [h r c hr2 hc2, hrow hon r hr2, hcol om c hc2]
      exact CharTwo.add_self_eq_zero _
    refine ⟨b1, ?_, hbox, hcalls⟩
    rw [e, hbox]
  · obtain ⟨b2, e, w, hc⟩ := loop_odd_odd b m n k hb om hon (hrow hon) (hcol om)
    exact ⟨b2, e, (cleared_iff_allFalse b2 m n w).mp hc⟩
  · intro c hc hbox
    obtain ⟨c1, e, w, hcalls, h⟩ := mask_pass c 1 1 hc
    have hbox1 : c1.box = allFalse 1 1 := by
      apply box_eq_allFalse c1 1 1 w
      intro r c2 hr2 hc2
      have hr0 : r = 0 := by omega
      have hc0 : c2 = 0 := by omega
      subst hr0 hc0
      rw [h 0 0 hr2 hc2, hbox]
      decide
    refine ⟨c1, ?_, hbox1, ?_⟩
    · rw [e, hbox1]
      rfl
    · rw [hcalls, hbox]
      rfl

/-- C12 (witness): the `1 × 1` box `[[true]]`, reached by the toggle `(0, 0)`. -/
theorem mask_pass_clears_odd_odd_witness :
    (1 % 2 = 1 ∧ Reachable 1 1 ⟨[[true]], 1, 1, [(0, 0)]⟩) ∧
    (∃ b1, toggleBoxByMask [[true]] ⟨[[true]], 1, 1, [(0, 0)]⟩ = .ok (allFalse 1 1, b1) ∧
      b1.box = allFalse 1 1 ∧ b1.calls = [(0, 0)] ++ maskPositions [[true]]) ∧
    (∃ b2, openBoxLoop 1 1 ⟨[[true]], 1, 1, [(0, 0)]⟩ = .done b2 ∧ b2.box = allFalse 1 1) ∧
    (∀ c : SecureBox, c.WF 1 1 → c.box = [[true]] →
      ∃ c1, toggleBoxByMask c.getState c = .ok ([[false]], c1) ∧ c1.box = [[false]] ∧
        c1.calls = c.calls ++ [(0, 0)]) :=
  ⟨⟨by decide, [(0, 0)], by decide, by decide⟩,
    mask_pass_clears_odd_odd 1 1 ⟨[[true]], 1, 1, [(0, 0)]⟩ (by decide) (by decide)
      ⟨[(0, 0)], by decide, by decide⟩⟩

/-- C14: on a box with an even number of rows and of columns, from every
well-formed state, two successive passes of `toggleBoxByMask` leave the
all-`false` grid, the loop of `openBox` exits within two iterations with every
cell `false`, and in every iteration `isAllEqualOne` answers `false`, so the
body of the loop is the mask pass alone and `toggleByRowOrColum` is not
invoked. -/
theorem even_even_two_passes (m n : Nat) (b : SecureBox) (hm : 0 < m) (em : m % 2 = 0)
    (en : n % 2 = 0) (hb : b.WF m n) :
    (∃ b2, openBoxLoop m 2 b = .done b2 ∧ b2.box = allFalse m n) ∧
    (∃ b1 b2, toggleBoxByMask b.getState b = .ok (b1.box, b1) ∧
      toggleBoxByMask b1.getState b1 = .ok (allFalse m n, b2) ∧ b2.box = allFalse m n) ∧
    (∀ c : SecureBox, c.WF m n →
      ∃ c1, toggleBoxByMask c.getState c = .ok (c1.box, c1) ∧
        isAllEqualOne c1.box = .ok false ∧ openBoxBody m c = .ok c1) := by
  refine ⟨?_, ?_, ?_⟩
  · obtain ⟨b2, e, w, hc⟩ := loop_even_even b m n hb hm em en
    exact ⟨b2, e, (cleared_iff_allFalse b2 m n w).mp hc⟩
  · obtain ⟨b1, e1, w1, _, h1⟩ := mask_pass b m n hb
    obtain ⟨b2, e2, w2, _, h2⟩ := mask_pass b1 m n w1
    have hbox : b2.box = allFalse m n :=
      box_eq_allFalse b2 m n w2
        (fun r c hr hc => second_pass_even_even b.box b1.box b2.box m n em en h1 h2 r c hr hc)
    refine ⟨b1, b2, e1, ?_, hbox⟩
    rw [e2, hbox]
  · intro c hc
    obtain ⟨c1, e1, w1, _, _⟩ := mask_pass c m n hc
    obtain ⟨v, ea, hv⟩ := isAllEqualOne_spec c1.box m n w1.2.2 hm
    have hvf : v = false := by
      cases v with
      | false => rfl
      | true => exact absurd (by omega : m % 2 = n % 2) (hv.mp rfl).1
    subst hvf
    exact ⟨c1, e1, ea, body_plain m c c1 c1.box e1 ea⟩

/-- C14 (witness): a `2 × 2` box. -/
theorem even_even_two_passes_witness :
    (0 < 2 ∧ 2 % 2 = 0 ∧ SecureBox.WF ⟨[[true, false], [false, false]], 2, 2, []⟩ 2 2) ∧
    (∃ b2, openBoxLoop 2 2 ⟨[[true, false], [false, false]], 2, 2, []⟩ = .done b2 ∧
      b2.box = allFalse 2 2) ∧
    (∃ b1 b2, toggleBoxByMask [[true, false], [false, false]]
        ⟨[[true, false], [false, false]], 2, 2, []⟩ = .ok (b1.box, b1) ∧
      toggleBoxByMask b1.getState b1 = .ok (allFalse 2 2, b2) ∧ b2.box = allFalse 2 2) ∧
    (∀ c : SecureBox, c.WF 2 2 →
      ∃ c1, toggleBoxByMask c.getState c = .ok (c1.box, c1) ∧
        isAllEqualOne c1.box = .ok false ∧ openBoxBody 2 c = .ok c1) :=
  ⟨⟨by decide, by decide, by decide⟩,
    even_even_two_passes 2 2 ⟨[[true, false], [false, false]], 2, 2, []⟩
      (by decide) (by decide) (by decide) (by decide)⟩

/-- C15: on a box with an odd number of rows and an even number of columns, in
a state reachable from the all-`false` grid by in-bounds toggles, the loop of
`openBox` exits within two iterations and leaves every cell `false`. -/
theorem loop_odd_even_reachable (m n : Nat) (b : SecureBox) (om : m % 2 = 1)
    (en : n % 2 = 0) (hr : Reachable m n b) :
    ∃ b1, openBoxLoop m 2 b = .done b1 ∧ b1.box = allFalse m n ∧ b1.Cleared m n := by
  have hb := reachable_wf m n b hr
  obtain ⟨k, hcol, _⟩ := reachable_parity m n b hr
  rcases Nat.eq_zero_or_pos n with h0 | hn
  · have hc : b.Cleared m n := by
      intro r c _ hc
      omega
    exact ⟨b, loop_done m 2 b (isLocked_of_cleared b m n hb hc),
      (cleared_iff_allFalse b m n hb).mp hc, hc⟩
  · obtain ⟨b1, e, w, hc⟩ := loop_odd_even b m n k hb hn om en (hcol om)
    exact ⟨b1, e, (cleared_iff_allFalse b1 m n w).mp hc, hc⟩

/-- C15 (witness): the `3 × 2` box after the toggles `(0, 0)` and `(2, 1)`. -/
theorem loop_odd_even_reachable_witness :
    (3 % 2 = 1 ∧ 2 % 2 = 0 ∧
      Reachable 3 2 ⟨[[true, false], [true, true], [false, true]], 3, 2, [(0, 0), (2, 1)]⟩) ∧
    ∃ b1, openBoxLoop 3 2
        ⟨[[true, false], [true, true], [false, true]], 3, 2, [(0, 0), (2, 1)]⟩ = .done b1 ∧
      b1.box = allFalse 3 2 ∧ b1.Cleared 3 2 :=
  ⟨⟨by decide, by decide, [(0, 0), (2, 1)], by decide, by decide⟩,
    loop_odd_even_reachable 3 2
      ⟨[[true, false], [true, true], [false, true]], 3, 2, [(0, 0), (2, 1)]⟩
      (by decide) (by decide) ⟨[(0, 0), (2, 1)], by decide, by decide⟩⟩

/-! ## The calls of `toggleBoxByMask` and of `toggleByRowOrColum` -/

theorem toggle_calls (b b1 : SecureBox) (y x : Nat) (h : b.toggle y x = .ok b1) :
    b1.calls = b.calls ++ [(y, x)] := by
  unfold SecureBox.toggle at h
  cases h0 : flipCell b.box y x with
  | error f => simp [h0] at h
  | ok g0 =>
    cases h1 : forRange b.xSize (fun i g => flipCell g y i) g0 with
    | error f => simp [h0, h1] at h
    | ok g1 =>
      cases h2 : forRange b.ySize (fun i g => flipCell g i x) g1 with
      | error f => simp [h0, h1, h2] at h
      | ok g2 =>
        simp only [h0, h1, h2, Except.ok.injEq] at h
        rw [← h]

theorem applyToggles_calls (ps : List (Nat × Nat)) (b b1 : SecureBox)
    (h : applyToggles b ps = .ok b1) : b1.calls = b.calls ++ ps := by
  induction ps generalizing b with
  | nil =>
    simp only [applyToggles, Except.ok.injEq] at h
    rw [← h, List.append_nil]
  | cons p ps ih =>
    obtain ⟨y, x⟩ := p
    simp only [applyToggles] at h
    cases h1 : b.toggle y x with
    | error f => simp [h1] at h
    | ok b2 =>
      simp only [h1] at h
      rw [ih b2 h, toggle_calls b b2 y x h1, List.append_assoc]
      rfl

theorem mem_maskPositions (s : Grid) (m n : Nat) (hs : WFGrid s m n) (r c : Nat) :
    (r, c) ∈ maskPositions s ↔ (r < m ∧ c < n ∧ cell s r c = true) := by
  unfold maskPositions rowPositions
  simp only [List.mem_flatMap, List.mem_map, List.mem_filter, List.mem_range, Prod.mk.injEq]
  constructor
  · rintro ⟨r1, hr1, c1, ⟨hc1, hcell⟩, rfl, rfl⟩
    rw [hs.1] at hr1
    rw [getD_length s m n r1 hs hr1] at hc1
    exact ⟨hr1, hc1, hcell⟩
  · rintro ⟨hr, hc, hcell⟩
    refine ⟨r, by rw [hs.1]; exact hr, c, ⟨?_, hcell⟩, rfl, rfl⟩
    rw [getD_length s m n r hs hr]
    exact hc

theorem maskPositions_row_major (s : Grid) :
    (maskPositions s).Pairwise (fun p q => p.1 < q.1 ∨ (p.1 = q.1 ∧ p.2 < q.2)) := by
  unfold maskPositions
  rw [List.pairwise_flatMap]
  constructor
  · intro r _
    unfold rowPositions
    exact ((List.pairwise_lt_range _).filter _).map _ (fun a b hab => Or.inr ⟨rfl, hab⟩)
  · refine (List.pairwise_lt_range _).imp ?_
    intro r1 r2 h12 p hp q hq
    unfold rowPositions at hp hq
    obtain ⟨c1, _, rfl⟩ := List.mem_map.mp hp
    obtain ⟨c2, _, rfl⟩ := List.mem_map.mp hq
    exact Or.inl h12

/-- C16: `toggleBoxByMask(state, box)` is the sequence of calls `box.toggle(r, c)`
for the positions `maskPositions state`, whatever the live state of `box`:
when it returns, it returns the state of the box and has added exactly these
calls to the history; the positions are those that are `true` in `state`, and
they come in strictly increasing row-major order, so each one once. -/
theorem toggleBoxByMask_calls (s : Grid) (b : SecureBox) (m n : Nat) (hs : WFGrid s m n) :
    (toggleBoxByMask s b =
      match applyToggles b (maskPositions s) with
      | .ok b1 => .ok (b1.getState, b1)
      | .error f => .error f) ∧
    (∀ g b1, toggleBoxByMask s b = .ok (g, b1) →
      g = b1.box ∧ b1.calls = b.calls ++ maskPositions s) ∧
    (∀ r c, (r, c) ∈ maskPositions s ↔ (r < m ∧ c < n ∧ cell s r c = true)) ∧
    (maskPositions s).Pairwise (fun p q => p.1 < q.1 ∨ (p.1 = q.1 ∧ p.2 < q.2)) ∧
    (maskPositions s).Nodup := by
  refine ⟨toggleBoxByMask_eq s b, ?_, mem_maskPositions s m n hs, maskPositions_row_major s, ?_⟩
  · intro g b1 h
    rw [toggleBoxByMask_eq] at h
    cases ha : applyToggles b (maskPositions s) with
    | error f => simp [ha] at h
    | ok b2 =>
      simp only [ha, Except.ok.injEq, Prod.mk.injEq] at h
      obtain ⟨h1, h2⟩ := h
      subst h2
      exact ⟨h1.symm, applyToggles_calls _ b b2 ha⟩
  · refine (maskPositions_row_major s).imp ?_
    intro p q hpq heq
    subst heq
    rcases hpq with h | ⟨_, h⟩
    · exact absurd h (Nat.lt_irrefl _)
    · exact absurd h (Nat.lt_irrefl _)

/-- C16 (witness): a `2 × 3` snapshot, applied to a box in another state. -/
theorem toggleBoxByMask_calls_witness :
    WFGrid [[false, true, true], [true, false, false]] 2 3 ∧
    (toggleBoxByMask [[false, true, true], [true, false, false]] ⟨allFalse 2 3, 2, 3, []⟩ =
      match applyToggles ⟨allFalse 2 3, 2, 3, []⟩
        (maskPositions [[false, true, true], [true, false, false]]) with
      | .ok b1 => .ok (b1.getState, b1)
      | .error f => .error f) ∧
    (∀ g b1, toggleBoxByMask [[false, true, true], [true, false, false]]
        ⟨allFalse 2 3, 2, 3, []⟩ = .ok (g, b1) →
      g = b1.box ∧ b1.calls = [] ++ maskPositions [[false, true, true], [true, false, false]]) ∧
    (∀ r c, (r, c) ∈ maskPositions [[false, true, true], [true, false, false]] ↔
      (r < 2 ∧ c < 3 ∧ cell [[false, true, true], [true, false, false]] r c = true)) ∧
    (maskPositions [[false, true, true], [true, false, false]]).Pairwise
      (fun p q => p.1 < q.1 ∨ (p.1 = q.1 ∧ p.2 < q.2)) ∧
    (maskPositions [[false, true, true], [true, false, false]]).Nodup :=
  ⟨by decide, toggleBoxByMask_calls [[false, true, true], [true, false, false]]
    ⟨allFalse 2 3, 2, 3, []⟩ 2 3 (by decide)⟩

theorem forRange_eq_applyToggles (f : Nat → Nat × Nat) (k : Nat) (b : SecureBox) :
    forRange k (fun i bx => bx.toggle (f i).1 (f i).2) b
      = applyToggles b ((List.range k).map f) := by
  induction k with
  | zero => rfl
  | succ j ih =>
    rw [forRange, ih, List.range_succ, List.map_append, applyToggles_append]
    cases applyToggles b ((List.range j).map f) with
    | error e => rfl
    | ok b1 =>
      simp only [List.map_cons, List.map_nil]
      exact (applyToggles_singleton b1 (f j).1 (f j).2).symm

/-- C17 (the code at the failing input): `toggleByRowOrColum(y, box, state)` calls
`toggle(row, 0)` for `row = 0 .. state.size() - 1` when `y` is odd, and
`toggle(0, colum)` for `colum = 0 .. state.size() - 1` when `y` is even: the
number of rows bounds both loops.  On the `2 × 3` all-`true` box it calls
`toggle(0, 0)` and `toggle(0, 1)` and never `toggle(0, 2)`; on the `2 × 1` box
its second call, `toggle(0, 1)`, is outside of the grid. -/
theorem toggleByRowOrColum_even_bounded_by_rows :
    (∀ k b s, toggleByRowOrColum (2 * k + 1) b s
      = applyToggles b ((List.range s.length).map (fun row => (row, 0)))) ∧
    (∀ k b s, toggleByRowOrColum (2 * k) b s
      = applyToggles b ((List.range s.length).map (fun colum => (0, colum)))) ∧
    toggleByRowOrColum 2 ⟨allTrue 2 3, 2, 3, []⟩ (allTrue 2 3)
      = .ok ⟨[[true, true, true], [false, false, true]], 2, 3, [(0, 0), (0, 1)]⟩ ∧
    toggleByRowOrColum 2 ⟨allTrue 2 1, 2, 1, []⟩ (allTrue 2 1) = .error (.outOfRange 0 1) := by
  refine ⟨?_, ?_, by decide, by decide⟩
  · intro k b s
    unfold toggleByRowOrColum
    rw [if_pos (by omega)]
    exact forRange_eq_applyToggles (fun row => (row, 0)) s.length b
  · intro k b s
    unfold toggleByRowOrColum
    rw [if_neg (by omega)]
    exact forRange_eq_applyToggles (fun colum => (0, colum)) s.length b

theorem cell_of_val_add_one (g g1 : Grid) (r c : Nat) (h : val g1 r c = val g r c + 1) :
    cell g1 r c = !cell g r c := by
  unfold val at h
  cases h1 : cell g1 r c <;> cases h0 : cell g r c <;> simp [h1, h0] at h ⊢

/-- C18: on a box with an odd number `m` of rows and `n ≥ 1` columns (`n` even
or not), `toggleByRowOrColum(m, box, state)` calls `toggle(row, 0)` for every
row and flips every cell once net; when every cell was `true`, it leaves the
all-`false` grid. -/
theorem toggleByRow_clears_all_true (m n : Nat) (b : SecureBox) (om : m % 2 = 1)
    (hn : 0 < n) (hb : b.WF m n) (hall : b.box = allTrue m n) :
    ∃ b1, toggleByRowOrColum m b b.getState = .ok b1 ∧ b1.WF m n ∧
      b1.calls = b.calls ++ (List.range m).map (fun row => (row, 0)) ∧
      (∀ r c, r < m → c < n → cell b1.box r c = !cell b.box r c) ∧
      b1.box = allFalse m n := by
  obtain ⟨b1, e, w, hcalls, h⟩ := toggleByRow_spec m b b.getState m n (by omega) hb hb.2.2.1 hn
  have hflip : ∀ r c, r < m → c < n → val b1.box r c = val b.box r c + 1 := by
    intro r c hr hc
    rw [h r c hr hc, natCast_odd m om]
    split_ifs <;> rfl
  refine ⟨b1, e, w, hcalls, fun r c hr hc => cell_of_val_add_one _ _ r c (hflip r c hr hc), ?_⟩
  apply box_eq_allFalse b1 m n w
  intro r c hr hc
  rw [hflip r c hr hc, hall, val_allTrue m n r c hr hc]
  decide

/-- C18 (witness): the `3 × 2` box with every cell `true`. -/
theorem toggleByRow_clears_all_true_witness :
    (3 % 2 = 1 ∧ 0 < 2 ∧ SecureBox.WF ⟨allTrue 3 2, 3, 2, []⟩ 3 2) ∧
    ∃ b1, toggleByRowOrColum 3 ⟨allTrue 3 2, 3, 2, []⟩ (allTrue 3 2) = .ok b1 ∧ b1.WF 3 2 ∧
      b1.calls = [] ++ (List.range 3).map (fun row => (row, 0)) ∧
      (∀ r c, r < 3 → c < 2 → cell b1.box r c = !cell (allTrue 3 2) r c) ∧
      b1.box = allFalse 3 2 :=
  ⟨⟨by decide, by decide, by decide⟩,
    toggleByRow_clears_all_true 3 2 ⟨allTrue 3 2, 3, 2, []⟩
      (by decide) (by decide) (by decide) rfl⟩

end BoxUnlocker
